import Mathlib

/-!
Verification of the drag-physics core of the Spotify path explorer
(`src/public/app.js`, lines 774-924, duplicated verbatim in
`src/unnamed/part_000`, lines 623-773).

The JavaScript state consists of the module-level mutable variables
`draggedNode`, `connectedNodes`, `prevDragPos`, `animationId`, the
cytoscape per-node positions and per-node scratch fields (`_velocity`,
`_dragging`, `_originalDist`, `_angle`), and the pending
`requestAnimationFrame` callback.  Every handler (`grab`, `drag`, `free`)
and the `decelerate` frame callback reads and writes this shared state,
so the whole physics core is embedded as a step function on an explicit
state record `Sys`, driven by events (grab, drag, free, animation frame,
node removal).  Real-number positions model the JavaScript doubles;
`Real.sqrt` models `Math.sqrt`.

A second, purely rational model (`decelIter` and friends) embeds the
per-node body of the `decelerate` loop (which involves no square roots)
so that the exact settle-frame counts can be computed and compared
against the closed-form logarithm formula of the specification.
-/

/-- A 2-D vector, as used for cytoscape positions and the `_velocity`
scratch objects (`{ x: ..., y: ... }`). -/
structure Vec2 where
  x : ℝ
  y : ℝ

namespace Vec2

/-- Componentwise addition, as in `velocity.x += forceX; velocity.y += forceY`. -/
def add (a b : Vec2) : Vec2 := ⟨a.x + b.x, a.y + b.y⟩

instance : Add Vec2 := ⟨Vec2.add⟩

theorem add_def (a b : Vec2) : a + b = ⟨a.x + b.x, a.y + b.y⟩ := rfl

@[simp] theorem add_zero_vec (a : Vec2) : a + (⟨0, 0⟩ : Vec2) = a := by
  cases a; simp [add_def]

/-- Squared Euclidean magnitude of a vector. -/
def mag2 (v : Vec2) : ℝ := v.x * v.x + v.y * v.y

/-- Euclidean magnitude (`Math.sqrt(v.x*v.x + v.y*v.y)`). -/
noncomputable def mag (v : Vec2) : ℝ := Real.sqrt (mag2 v)

theorem mag2_nonneg (v : Vec2) : 0 ≤ v.mag2 := by
  have hx := mul_self_nonneg v.x
  have hy := mul_self_nonneg v.y
  simpa [mag2] using add_nonneg hx hy

end Vec2

/-- The four per-node scratch fields the physics code stores on cytoscape
nodes: `_velocity`, `_dragging`, `_originalDist`, `_angle`.  A `none`
field models an absent (removed / never written) scratch entry. -/
structure Scratch where
  velocity : Option Vec2
  dragging : Option Bool
  originalDist : Option ℝ
  angle : Option ℝ

/-- The scratch state of a node that carries no transient fields
(all four scratch entries absent, as after `removeScratch`). -/
def Scratch.empty : Scratch := ⟨none, none, none, none⟩

/-- Pointwise update of a total map, used for the per-node position,
scratch and liveness stores. -/
def upd {α : Type} (f : ℕ → α) (k : ℕ) (v : α) : ℕ → α :=
  fun m => if m = k then v else f m

@[simp] theorem upd_same {α : Type} (f : ℕ → α) (k : ℕ) (v : α) :
    upd f k v k = v := by simp [upd]

theorem upd_ne {α : Type} (f : ℕ → α) (k : ℕ) (v : α) {m : ℕ}
    (h : m ≠ k) : upd f k v m = f m := by simp [upd, h]

/-- The complete mutable state of the drag-physics core:

* `pos` — cytoscape node positions (`node.position()`);
* `scr` — per-node scratch fields;
* `live` — whether a node still exists in the graph (removal support);
* `draggedNode`, `connectedNodes`, `prevDragPos`, `animationId` — the
  module-level variables of `app.js` (lines 775-778);
* `pending` — the id of the currently scheduled, not-yet-fired
  `requestAnimationFrame` callback, if any;
* `nextFrameId` — fresh-id counter for `requestAnimationFrame` handles
  (browser handles are positive integers, so truthiness of `animationId`
  coincides with `isSome`). -/
structure Sys where
  pos : ℕ → Vec2
  scr : ℕ → Scratch
  live : ℕ → Bool
  draggedNode : Option ℕ
  connectedNodes : Option (List ℕ)
  prevDragPos : Option Vec2
  animationId : Option ℕ
  pending : Option ℕ
  nextFrameId : ℕ

/-- `followStrength = 0.3` (app.js line 779). -/
def followStrength : ℝ := 0.3

/-- `idealDistance = 100` (app.js line 780). -/
def idealDistance : ℝ := 100

/-- `repulsionStrength = 50` (app.js line 781). -/
def repulsionStrength : ℝ := 50

/-- `Math.atan2(dy, dx)` (app.js line 801); its value is stored in the
`_angle` scratch field and never read for any computation. -/
noncomputable def atan2 (y x : ℝ) : ℝ :=
  if 0 < x then Real.arctan (y / x)
  else if x < 0 then
    (if 0 ≤ y then Real.arctan (y / x) + Real.pi
     else Real.arctan (y / x) - Real.pi)
  else
    (if 0 < y then Real.pi / 2 else if y < 0 then -(Real.pi / 2) else 0)

/-- Euclidean distance `Math.sqrt(dx*dx + dy*dy)` between two positions
(app.js lines 797-799). -/
noncomputable def dist2d (a b : Vec2) : ℝ :=
  Real.sqrt ((a.x - b.x) * (a.x - b.x) + (a.y - b.y) * (a.y - b.y))

/-- Step 1 of the force integrator: the follow force
`velocity.x += deltaX * followStrength; velocity.y += deltaY * followStrength`
(app.js lines 822-823). -/
def followVel (v delta : Vec2) : Vec2 :=
  ⟨v.x + delta.x * followStrength, v.y + delta.y * followStrength⟩

/-- Step 2 of the force integrator: the spring contribution added to the
velocity when `currentDist > 0`, and nothing when the distance is zero
(app.js lines 826-839). -/
noncomputable def springTerm (pos dragPos : Vec2) (originalDist : ℝ) : Vec2 :=
  let dx := pos.x - dragPos.x
  let dy := pos.y - dragPos.y
  let currentDist := Real.sqrt (dx * dx + dy * dy)
  if 0 < currentDist then
    let distanceError := currentDist - originalDist
    let springForce := -distanceError * 0.1
    ⟨dx / currentDist * springForce, dy / currentDist * springForce⟩
  else ⟨0, 0⟩

/-- Step 3 of the force integrator: the repulsion contribution of one
other connected node, added when `0 < dist2 < idealDistance` and skipped
otherwise (app.js lines 845-854). -/
noncomputable def repulsionTerm (pos otherPos : Vec2) : Vec2 :=
  let dx2 := pos.x - otherPos.x
  let dy2 := pos.y - otherPos.y
  let d2 := Real.sqrt (dx2 * dx2 + dy2 * dy2)
  if 0 < d2 ∧ d2 < idealDistance then
    let repulsion := repulsionStrength / (d2 * d2)
    ⟨dx2 / d2 * repulsion, dy2 / d2 * repulsion⟩
  else ⟨0, 0⟩

/-- Step 4 of the force integrator: damping
`velocity.x *= 0.85; velocity.y *= 0.85` (app.js lines 858-859). -/
def dampVel (v : Vec2) : Vec2 := ⟨v.x * 0.85, v.y * 0.85⟩

/-- The `_originalDist` read in the drag handler:
`node.scratch('_originalDist') || idealDistance` (app.js line 818) —
a stored value of `0` is falsy in JavaScript and also falls back to
`idealDistance`. -/
noncomputable def readOriginalDist (s : Scratch) : ℝ :=
  match s.originalDist with
  | some v => if v = 0 then idealDistance else v
  | none => idealDistance

/-- The body of `connectedNodes.forEach(node => ...)` in the drag
handler (app.js lines 815-868) for one connected node `n`: follow force,
spring force, pairwise repulsion over the (already partially updated)
positions of the other connected nodes, damping, position integration,
and storing the velocity back into scratch.  Sequential semantics: the
fold over the outer list threads the state, so later nodes read earlier
nodes' updated positions, exactly as the JavaScript loop does. -/
noncomputable def dragHandlerNode (L : List ℕ) (dragPos delta : Vec2)
    (s : Sys) (n : ℕ) : Sys :=
  let pos0 := s.pos n
  let velocity := (s.scr n).velocity.getD ⟨0, 0⟩
  let originalDist := readOriginalDist (s.scr n)
  let v1 := followVel velocity delta
  let v2 := v1 + springTerm pos0 dragPos originalDist
  let v3 := L.foldl
    (fun v m => if m = n then v else v + repulsionTerm pos0 (s.pos m)) v2
  let v4 := dampVel v3
  { s with
    pos := upd s.pos n ⟨pos0.x + v4.x, pos0.y + v4.y⟩
    scr := upd s.scr n { s.scr n with velocity := some v4 } }

/-- The drag handler `cy.on('drag', 'node', ...)` (app.js lines
805-872): guard on the three session variables, compute the movement
delta of the dragged node, integrate every connected node, then update
`prevDragPos`. -/
noncomputable def dragHandler (s : Sys) : Sys :=
  match s.draggedNode, s.connectedNodes, s.prevDragPos with
  | some d, some L, some prev =>
    let dragPos := s.pos d
    let delta : Vec2 := ⟨dragPos.x - prev.x, dragPos.y - prev.y⟩
    let s1 := L.foldl (dragHandlerNode L dragPos delta) s
    { s1 with prevDragPos := some dragPos }
  | _, _, _ => s

/-- The body of `connectedNodes.forEach(node => ...)` inside
`decelerate` (app.js lines 881-902) for one node: skip unless the
`_dragging` scratch is truthy and a `_velocity` object exists; damp the
velocity by `0.88` (an in-place mutation of the stored object, so the
damped value persists in both branches); if an axis still exceeds the
`0.1` threshold, move the node and raise `stillMoving`, otherwise clear
the `_dragging` flag. -/
noncomputable def decelNode (p : Sys × Bool) (n : ℕ) : Sys × Bool :=
  match (p.1.scr n).dragging with
  | some true =>
    match (p.1.scr n).velocity with
    | some v =>
      let v' : Vec2 := ⟨v.x * 0.88, v.y * 0.88⟩
      if 0.1 < |v'.x| ∨ 0.1 < |v'.y| then
        ({ p.1 with
            pos := upd p.1.pos n
              ⟨(p.1.pos n).x + v'.x, (p.1.pos n).y + v'.y⟩
            scr := upd p.1.scr n { p.1.scr n with velocity := some v' } },
          true)
      else
        ({ p.1 with
            scr := upd p.1.scr n
              { p.1.scr n with velocity := some v', dragging := some false } },
          p.2)
    | none => p
  | _ => p

/-- One call of `decelerate` (app.js lines 878-918): run the per-node
loop over the shared `connectedNodes` variable; if any node is still
moving, schedule another animation frame; otherwise remove all four
scratch fields of every connected node and reset the three session
variables.  (A call with `connectedNodes === null` would throw on
`null.forEach` before mutating anything, leaving the state unchanged.) -/
noncomputable def decelerate (s : Sys) : Sys :=
  match s.connectedNodes with
  | none => s
  | some L =>
    let r := L.foldl decelNode (s, false)
    let s' := r.1
    if r.2 then
      { s' with
        animationId := some s'.nextFrameId
        pending := some s'.nextFrameId
        nextFrameId := s'.nextFrameId + 1 }
    else
      { s' with
        scr := L.foldl (fun f m => upd f m Scratch.empty) s'.scr
        draggedNode := none
        connectedNodes := none
        prevDragPos := none }

/-- The grab handler `cy.on('grab', 'node', ...)` (app.js lines
783-803): record the dragged node and its position, snapshot the set of
direct neighbors (cytoscape removes a node's incident edges with the
node, so only live neighbors appear; the dragged node itself is filtered
out), and initialise each neighbor's scratch fields.  The pending
animation frame of a previous session is NOT cancelled here. -/
noncomputable def grabStep (adj : ℕ → List ℕ) (s : Sys) (n : ℕ) : Sys :=
  let dragPos := s.pos n
  let L := (adj n).filter (fun m => m ≠ n && s.live m)
  { s with
    draggedNode := some n
    prevDragPos := some dragPos
    connectedNodes := some L
    scr := L.foldl
      (fun f m =>
        upd f m
          { velocity := some ⟨0, 0⟩
            dragging := some true
            originalDist := some (dist2d (s.pos m) dragPos)
            angle := some (atan2 ((s.pos m).y - dragPos.y)
                                 ((s.pos m).x - dragPos.x)) })
      s.scr }

/-- The free handler `cy.on('free', 'node', ...)` (app.js lines
874-924): guard on the session variables, cancel the pending animation
frame recorded in `animationId` (a no-op when that id's callback has
already fired), then run the first `decelerate` step synchronously. -/
noncomputable def freeHandler (s : Sys) : Sys :=
  match s.draggedNode, s.connectedNodes with
  | some _, some _ =>
    let s1 :=
      match s.animationId with
      | some j =>
        { s with pending := if s.pending = some j then none else s.pending }
      | none => s
    decelerate s1
  | _, _ => s

/-- Firing of the pending `requestAnimationFrame` callback: the
`decelerate` closure reads the module-level `connectedNodes` variable at
fire time (all `decelerate` closures share the same mutable state), so a
stale callback of a cancelled session runs against the current session
variables. -/
noncomputable def frameStep (s : Sys) : Sys :=
  match s.pending with
  | some _ => decelerate { s with pending := none }
  | none => s

/-- Input and scheduler events driving the physics core.  `drag n p`
models cytoscape having moved node `n` to position `p` before the drag
handler runs; `remove n` models the node disappearing from the graph
(no handler for removal is registered in `app.js`, so only the liveness
of the node changes). -/
inductive Ev where
  | grab : ℕ → Ev
  | drag : ℕ → Vec2 → Ev
  | free : Ev
  | frame : Ev
  | remove : ℕ → Ev

/-- The transition function of the physics core: dispatch one event
against the current state. -/
noncomputable def step (adj : ℕ → List ℕ) (s : Sys) : Ev → Sys
  | .grab n => grabStep adj s n
  | .drag n p => dragHandler { s with pos := upd s.pos n p }
  | .free => freeHandler s
  | .frame => frameStep s
  | .remove n => { s with live := upd s.live n false }

/-- An initial state: no session variables set, no scratch fields on any
node, no pending frame; positions and liveness arbitrary. -/
def Sys.initial (pos : ℕ → Vec2) (live : ℕ → Bool) : Sys :=
  ⟨pos, fun _ => Scratch.empty, live, none, none, none, none, none, 1⟩

/-- States reachable from an initial state by event steps under a fixed
graph topology `adj`. -/
inductive Reachable (adj : ℕ → List ℕ) : Sys → Prop where
  | init (pos : ℕ → Vec2) (live : ℕ → Bool) :
      Reachable adj (Sys.initial pos live)
  | next (s : Sys) (e : Ev) :
      Reachable adj s → Reachable adj (step adj s e)

/-! ### Rational model of the per-node `decelerate` body

The `decelerate` loop (app.js lines 878-918) applies only field
operations and comparisons to a node's velocity and position — no square
roots — so its per-node dynamics embed exactly over `ℚ`.  This model is
used to compute exact settle-frame counts. -/

/-- A single node as seen by the `decelerate` loop: velocity, position,
and the `_dragging` flag. -/
structure DNode where
  vel : ℚ × ℚ
  pos : ℚ × ℚ
  dragging : Bool

/-- One `decelerate` call acting on one node (app.js lines 881-901):
skip unless `_dragging`; damp the velocity by `0.88`; if either damped
axis exceeds the `0.1` threshold the node moves and stays dragging,
otherwise the `_dragging` flag is cleared (the damped velocity persists
in both branches, since the stored object is mutated in place). -/
def decelNodeQ (nd : DNode) : DNode :=
  if nd.dragging then
    let v : ℚ × ℚ := (nd.vel.1 * 0.88, nd.vel.2 * 0.88)
    if 0.1 < |v.1| ∨ 0.1 < |v.2| then
      { vel := v, pos := (nd.pos.1 + v.1, nd.pos.2 + v.2), dragging := true }
    else
      { vel := v, pos := nd.pos, dragging := false }
  else nd

/-- The state of a node released with velocity `(v0, 0)` after `n`
`decelerate` calls (the first call runs synchronously in the `free`
handler, the rest as animation frames). -/
def decelIter (v0 : ℚ) : ℕ → DNode
  | 0 => { vel := (v0, 0), pos := (0, 0), dragging := true }
  | n + 1 => decelNodeQ (decelIter v0 n)

theorem decelIter_char (v0 : ℚ) :
    ∀ n : ℕ,
      ((decelIter v0 n).dragging = true ↔
        (n = 0 ∨ (0.1 : ℚ) < 0.88 ^ n * |v0|)) ∧
      ((decelIter v0 n).dragging = true →
        (decelIter v0 n).vel = ((0.88 : ℚ) ^ n * v0, 0)) := by
  intro n
  induction n with
  | zero => simp [decelIter]
  | succ n ih =>
    obtain ⟨ih1, ih2⟩ := ih
    by_cases hd : (decelIter v0 n).dragging = true
    · have hvel := ih2 hd
      have habs : |(0.88 : ℚ) ^ (n + 1) * v0| = 0.88 ^ (n + 1) * |v0| := by
        rw [abs_mul, abs_pow]
        norm_num
      by_cases hmov : (0.1 : ℚ) < 0.88 ^ (n + 1) * |v0|
      · constructor
        · simp only [decelIter, decelNodeQ, hd, hvel, if_true]
          rw [if_pos]
          · simp [hmov]
          · left
            rw [show (0.88 : ℚ) ^ n * v0 * 0.88 = 0.88 ^ (n + 1) * v0 by ring,
              habs]
            exact hmov
        · intro _
          simp only [decelIter, decelNodeQ, hd, hvel, if_true]
          rw [if_pos]
          · simp; ring
          · left
            rw [show (0.88 : ℚ) ^ n * v0 * 0.88 = 0.88 ^ (n + 1) * v0 by ring,
              habs]
            exact hmov
      · have hcond : ¬((0.1 : ℚ) < |(0.88 : ℚ) ^ n * v0 * 0.88| ∨
            (0.1 : ℚ) < |(0 : ℚ) * 0.88|) := by
          push_neg
          constructor
          · rw [show (0.88 : ℚ) ^ n * v0 * 0.88 = 0.88 ^ (n + 1) * v0 by ring,
              habs]
            exact le_of_not_lt hmov
          · norm_num
        constructor
        · simp only [decelIter, decelNodeQ, hd, hvel, if_true]
          rw [if_neg hcond]
          simp only [Nat.succ_ne_zero, false_or]
          constructor
          · intro h; exact absurd h (by simp)
          · intro h; exact absurd h hmov
        · intro hcontra
          exfalso
          have : (decelNodeQ (decelIter v0 n)).dragging = false := by
            simp only [decelNodeQ, hd, hvel, if_true]
            rw [if_neg hcond]
          rw [decelIter] at hcontra
          rw [this] at hcontra
          exact Bool.false_ne_true hcontra
    · have hstay : decelIter v0 (n + 1) = decelIter v0 n := by
        rw [decelIter, decelNodeQ, if_neg hd]
      have hn0 : n ≠ 0 := by
        intro h
        subst h
        exact hd (by simp [decelIter])
      have hle : (0.88 : ℚ) ^ n * |v0| ≤ 0.1 := by
        by_contra hlt
        exact hd (ih1.mpr (Or.inr (lt_of_not_le hlt)))
      constructor
      · rw [hstay]
        constructor
        · intro h; exact absurd h hd
        · intro h
          exfalso
          rcases h with h | h
          · exact Nat.succ_ne_zero n h
          · have : (0.88 : ℚ) ^ (n + 1) * |v0| ≤ 0.88 ^ n * |v0| := by
              rw [pow_succ]
              have h1 : (0 : ℚ) ≤ 0.88 ^ n * |v0| :=
                mul_nonneg (by positivity) (abs_nonneg _)
              nlinarith
            linarith
      · intro h
        rw [hstay] at h
        exact absurd h hd

theorem exists_settled (v0 : ℚ) : ∃ n, (decelIter v0 n).dragging = false := by
  obtain ⟨n, hn⟩ := exists_pow_lt_of_lt_one
    (show (0 : ℚ) < 0.1 / (|v0| + 1) by positivity)
    (show (0.88 : ℚ) < 1 by norm_num)
  refine ⟨n + 1, ?_⟩
  have hle : (0.88 : ℚ) ^ (n + 1) * |v0| ≤ 0.1 := by
    have h1 : (0.88 : ℚ) ^ (n + 1) ≤ 0.88 ^ n := by
      have := pow_le_pow_of_le_one (show (0 : ℚ) ≤ 0.88 by norm_num)
        (show (0.88 : ℚ) ≤ 1 by norm_num) (Nat.le_succ n)
      exact this
    have h2 : (0.88 : ℚ) ^ n * |v0| ≤ 0.88 ^ n * (|v0| + 1) := by
      have : (0 : ℚ) ≤ 0.88 ^ n := by positivity
      nlinarith [abs_nonneg v0]
    have h3 : (0.88 : ℚ) ^ n * (|v0| + 1) < 0.1 := by
      have hpos : (0 : ℚ) < |v0| + 1 := by positivity
      calc (0.88 : ℚ) ^ n * (|v0| + 1)
          < 0.1 / (|v0| + 1) * (|v0| + 1) := by
            exact mul_lt_mul_of_pos_right hn hpos
        _ = 0.1 := div_mul_cancel₀ _ (ne_of_gt hpos)
    have h4 : (0 : ℚ) ≤ |v0| := abs_nonneg v0
    nlinarith [pow_nonneg (show (0 : ℚ) ≤ 0.88 by norm_num) n]
  have := (decelIter_char v0 (n + 1)).1
  rw [show ((decelIter v0 (n + 1)).dragging = false) ↔
      ¬((decelIter v0 (n + 1)).dragging = true) by
    cases h : (decelIter v0 (n + 1)).dragging <;> simp]
  rw [this]
  push_neg
  exact ⟨Nat.succ_ne_zero n, le_of_not_lt (fun h => absurd hle (not_le.mpr h))⟩

/-- The number of `decelerate` calls (the synchronous one in the `free`
handler plus the scheduled animation frames) after which a node released
with velocity `(v0, 0)` has its `_dragging` flag cleared. -/
def settleCalls (v0 : ℚ) : ℕ := Nat.find (exists_settled v0)

/-- The number of `decelerate` calls in which the released node actually
moves (equivalently, the number of animation frames the decay scheduler
requests for it): the calls whose position differs from the previous
one. -/
def movingFrames (v0 : ℚ) : ℕ :=
  ((Finset.range (settleCalls v0)).filter
    (fun n => (decelIter v0 (n + 1)).pos ≠ (decelIter v0 n).pos)).card

theorem settleCalls_pos (v0 : ℚ) : 0 < settleCalls v0 := by
  rcases Nat.eq_zero_or_pos (settleCalls v0) with h | h
  · exfalso
    have := Nat.find_spec (exists_settled v0)
    rw [settleCalls] at h
    rw [h] at this
    simp [decelIter] at this
  · exact h

theorem settleCalls_dragging_lt (v0 : ℚ) {m : ℕ} (h : m < settleCalls v0) :
    (decelIter v0 m).dragging = true := by
  have := Nat.find_min (exists_settled v0) h
  cases hb : (decelIter v0 m).dragging
  · exact absurd hb this
  · rfl

theorem settleCalls_dragging_self (v0 : ℚ) :
    (decelIter v0 (settleCalls v0)).dragging = false :=
  Nat.find_spec (exists_settled v0)

theorem movingFrames_eq_settleCalls_sub_one (v0 : ℚ) :
    movingFrames v0 = settleCalls v0 - 1 := by
  have hpred : ∀ n ∈ Finset.range (settleCalls v0),
      ((decelIter v0 (n + 1)).pos ≠ (decelIter v0 n).pos ↔
        n + 1 < settleCalls v0) := by
    intro n hn
    rw [Finset.mem_range] at hn
    have hd : (decelIter v0 n).dragging = true := settleCalls_dragging_lt v0 hn
    have hvel : (decelIter v0 n).vel = ((0.88 : ℚ) ^ n * v0, 0) :=
      (decelIter_char v0 n).2 hd
    have habs : |(0.88 : ℚ) ^ n * v0 * 0.88| = 0.88 ^ (n + 1) * |v0| := by
      rw [show (0.88 : ℚ) ^ n * v0 * 0.88 = 0.88 ^ (n + 1) * v0 by ring,
        abs_mul, abs_pow]
      norm_num
    have hcond_iff : n + 1 < settleCalls v0 ↔
        (0.1 : ℚ) < 0.88 ^ (n + 1) * |v0| := by
      constructor
      · intro h
        have := (decelIter_char v0 (n + 1)).1.mp
          (settleCalls_dragging_lt v0 h)
        rcases this with h0 | h1
        · exact absurd h0 (Nat.succ_ne_zero n)
        · exact h1
      · intro h
        have hdrag : (decelIter v0 (n + 1)).dragging = true :=
          (decelIter_char v0 (n + 1)).1.mpr (Or.inr h)
        rcases Nat.lt_or_ge (n + 1) (settleCalls v0) with h' | h'
        · exact h'
        · exfalso
          have heq : n + 1 = settleCalls v0 := le_antisymm hn h'
          rw [heq] at hdrag
          rw [settleCalls_dragging_self v0] at hdrag
          exact Bool.false_ne_true hdrag
    by_cases hm : (0.1 : ℚ) < 0.88 ^ (n + 1) * |v0|
    · have hcnd : (0.1 : ℚ) < |((0.88 : ℚ) ^ n * v0, (0 : ℚ)).1 * 0.88| ∨
          (0.1 : ℚ) < |((0.88 : ℚ) ^ n * v0, (0 : ℚ)).2 * 0.88| := by
        left
        show (0.1 : ℚ) < |(0.88 : ℚ) ^ n * v0 * 0.88|
        rw [habs]
        exact hm
      have hstep : (decelIter v0 (n + 1)).pos =
          ((decelIter v0 n).pos.1 + 0.88 ^ n * v0 * 0.88,
           (decelIter v0 n).pos.2 + 0 * 0.88) := by
        rw [decelIter, decelNodeQ, if_pos hd, hvel, if_pos hcnd]
      constructor
      · intro _; exact hcond_iff.mpr hm
      · intro _
        rw [hstep]
        intro hcontra
        have hx := congrArg Prod.fst hcontra
        simp only at hx
        have h1 : (0.1 : ℚ) < |(0.88 : ℚ) ^ n * v0 * 0.88| := by
          rw [habs]; exact hm
        have hne : (0.88 : ℚ) ^ n * v0 * 0.88 ≠ 0 := by
          intro h0
          rw [h0, abs_zero] at h1
          norm_num at h1
        exact hne (by linarith)
    · have hstep : (decelIter v0 (n + 1)).pos = (decelIter v0 n).pos := by
        rw [decelIter, decelNodeQ, if_pos hd, hvel]
        rw [if_neg]
        push_neg
        constructor
        · rw [show (((0.88:ℚ)^n * v0, (0:ℚ)).1 * 0.88) = (0.88:ℚ)^n * v0 * 0.88 by rfl, habs]
          exact le_of_not_lt hm
        · norm_num
      constructor
      · intro h; exact absurd (hstep ▸ h) (by simp)
      · intro h; exact absurd (hcond_iff.mp h) hm
  rw [movingFrames, Finset.filter_congr hpred]
  have : (Finset.range (settleCalls v0)).filter
      (fun n => n + 1 < settleCalls v0) = Finset.range (settleCalls v0 - 1) := by
    ext n
    simp only [Finset.mem_filter, Finset.mem_range]
    omega
  rw [this, Finset.card_range]

theorem pow_le_iff_ceil_le (v0 : ℚ) (hv : (0.1 : ℚ) < v0) (n : ℕ) :
    ((0.88 : ℚ) ^ n * |v0| ≤ 0.1) ↔
      Real.log ((0.1 : ℝ) / (v0 : ℝ)) / Real.log 0.88 ≤ (n : ℝ) := by
  have hv0 : (0 : ℚ) < v0 := lt_trans (by norm_num) hv
  have habs : |v0| = v0 := abs_of_pos hv0
  have hvR : (0.1 : ℝ) < (v0 : ℝ) := by
    rw [show (0.1 : ℝ) = ((0.1 : ℚ) : ℝ) by norm_num]
    exact_mod_cast hv
  have hvR0 : (0 : ℝ) < (v0 : ℝ) := lt_trans (by norm_num) hvR
  have hlog88 : Real.log 0.88 < 0 :=
    Real.log_neg (by norm_num) (by norm_num)
  rw [habs]
  have hcast : ((0.88 : ℚ) ^ n * v0 ≤ 0.1) ↔
      ((0.88 : ℝ) ^ n * (v0 : ℝ) ≤ 0.1) := by
    rw [← Rat.cast_le (K := ℝ)]
    push_cast
    norm_num
  rw [hcast]
  have h1 : ((0.88 : ℝ) ^ n * (v0 : ℝ) ≤ 0.1) ↔
      ((0.88 : ℝ) ^ n ≤ 0.1 / (v0 : ℝ)) := by
    rw [le_div_iff₀ hvR0]
  rw [h1]
  have h2 : ((0.88 : ℝ) ^ n ≤ 0.1 / (v0 : ℝ)) ↔
      (Real.log ((0.88 : ℝ) ^ n) ≤ Real.log (0.1 / (v0 : ℝ))) := by
    rw [Real.log_le_log_iff (by positivity) (by positivity)]
  rw [h2, Real.log_pow]
  rw [div_le_iff_of_neg hlog88]

theorem settleCalls_eq_ceil (v0 : ℚ) (hv : (0.1 : ℚ) < v0) :
    (settleCalls v0 : ℤ) =
      ⌈Real.log ((0.1 : ℝ) / (v0 : ℝ)) / Real.log 0.88⌉ := by
  set r : ℝ := Real.log ((0.1 : ℝ) / (v0 : ℝ)) / Real.log 0.88 with hr
  have hvR : (0.1 : ℝ) < (v0 : ℝ) := by
    rw [show (0.1 : ℝ) = ((0.1 : ℚ) : ℝ) by norm_num]
    exact_mod_cast hv
  have hvR0 : (0 : ℝ) < (v0 : ℝ) := lt_trans (by norm_num) hvR
  have hlog88 : Real.log 0.88 < 0 :=
    Real.log_neg (by norm_num) (by norm_num)
  have hlograt : Real.log ((0.1 : ℝ) / (v0 : ℝ)) < 0 := by
    apply Real.log_neg
    · positivity
    · rw [div_lt_one hvR0]
      linarith
  have hrpos : 0 < r := by
    rw [hr]
    exact div_pos_of_neg_of_neg hlograt hlog88
  have hceil1 : 1 ≤ ⌈r⌉ := Int.ceil_pos.mpr hrpos
  have hdragged_iff : ∀ m : ℕ, ((decelIter v0 m).dragging = false ↔
      (m ≠ 0 ∧ r ≤ (m : ℝ))) := by
    intro m
    have hchar := (decelIter_char v0 m).1
    have hbool : ((decelIter v0 m).dragging = false) ↔
        ¬((decelIter v0 m).dragging = true) := by
      cases (decelIter v0 m).dragging <;> simp
    rw [hbool, hchar]
    push_neg
    constructor
    · rintro ⟨h0, h1⟩
      exact ⟨h0, (pow_le_iff_ceil_le v0 hv m).mp h1⟩
    · rintro ⟨h0, h1⟩
      exact ⟨h0, (pow_le_iff_ceil_le v0 hv m).mpr h1⟩
  have hkey : settleCalls v0 = (⌈r⌉).toNat := by
    rw [settleCalls]
    rw [Nat.find_eq_iff]
    constructor
    · rw [hdragged_iff]
      refine ⟨by omega, ?_⟩
      calc r ≤ ((⌈r⌉ : ℤ) : ℝ) := Int.le_ceil r
        _ = ((⌈r⌉.toNat : ℕ) : ℝ) := by
            norm_cast
            omega
    · intro m hm
      rw [hdragged_iff]
      push_neg
      intro _
      have hmceil : (m : ℤ) < ⌈r⌉ := by omega
      have := Int.lt_ceil.mp hmceil
      push_cast at this
      linarith
  omega

theorem dragging_false_iff (v0 : ℚ) (m : ℕ) :
    ((decelIter v0 m).dragging = false ↔
      (m ≠ 0 ∧ (0.88 : ℚ) ^ m * |v0| ≤ 0.1)) := by
  have hchar := (decelIter_char v0 m).1
  have hbool : ((decelIter v0 m).dragging = false) ↔
      ¬((decelIter v0 m).dragging = true) := by
    cases (decelIter v0 m).dragging <;> simp
  rw [hbool, hchar]
  constructor
  · intro h
    push_neg at h
    exact h
  · intro h
    push_neg
    exact h

theorem settleCalls_of_small (v0 : ℚ) (h : |v0| ≤ 0.1) :
    settleCalls v0 = 1 := by
  rw [settleCalls, Nat.find_eq_iff]
  constructor
  · rw [dragging_false_iff]
    refine ⟨one_ne_zero, ?_⟩
    rw [pow_one]
    nlinarith [abs_nonneg v0]
  · intro m hm
    have : m = 0 := by omega
    subst this
    simp [decelIter]

theorem settleCalls_at_one : settleCalls 1 = 19 := by
  rw [settleCalls, Nat.find_eq_iff]
  constructor
  · rw [dragging_false_iff]
    refine ⟨by norm_num, ?_⟩
    rw [abs_one, mul_one]
    norm_num
  · intro m hm
    rw [dragging_false_iff]
    push_neg
    intro hm0
    rw [abs_one, mul_one]
    have h18 : (0.88 : ℚ) ^ 18 ≤ 0.88 ^ m :=
      pow_le_pow_of_le_one (by norm_num) (by norm_num) (by omega)
    have h10 : (0.1 : ℚ) < 0.88 ^ 18 := by norm_num
    linarith

theorem movingFrames_at_one : movingFrames 1 = 18 := by
  rw [movingFrames_eq_settleCalls_sub_one, settleCalls_at_one]

theorem ceil_formula_at_one :
    ⌈Real.log ((0.1 : ℝ) / 1) / Real.log 0.88⌉ = 19 := by
  have h := settleCalls_eq_ceil 1 (by norm_num)
  rw [settleCalls_at_one] at h
  rw [show ((1 : ℚ) : ℝ) = (1 : ℝ) by norm_num] at h
  omega


theorem decelNode_session (p : Sys × Bool) (n : ℕ) :
    (decelNode p n).1.draggedNode = p.1.draggedNode ∧
    (decelNode p n).1.connectedNodes = p.1.connectedNodes ∧
    (decelNode p n).1.prevDragPos = p.1.prevDragPos ∧
    (decelNode p n).1.pending = p.1.pending ∧
    (decelNode p n).1.animationId = p.1.animationId ∧
    (decelNode p n).1.nextFrameId = p.1.nextFrameId ∧
    (decelNode p n).1.live = p.1.live := by
  cases hdr : (p.1.scr n).dragging with
  | none => simp [decelNode, hdr]
  | some bb =>
    cases bb
    · simp [decelNode, hdr]
    · cases hv : (p.1.scr n).velocity with
      | none => simp [decelNode, hdr, hv]
      | some v =>
        simp only [decelNode, hdr, hv]
        split <;> simp

theorem decelNode_pos_ne (p : Sys × Bool) (n : ℕ) {m : ℕ} (h : m ≠ n) :
    (decelNode p n).1.pos m = p.1.pos m := by
  cases hdr : (p.1.scr n).dragging with
  | none => simp only [decelNode, hdr]
  | some bb =>
    cases bb
    · simp only [decelNode, hdr]
    · cases hv : (p.1.scr n).velocity with
      | none => simp only [decelNode, hdr, hv]
      | some v =>
        simp only [decelNode, hdr, hv]
        split
        · exact upd_ne _ _ _ h
        · rfl

theorem decelNode_scr_ne (p : Sys × Bool) (n : ℕ) {m : ℕ} (h : m ≠ n) :
    (decelNode p n).1.scr m = p.1.scr m := by
  cases hdr : (p.1.scr n).dragging with
  | none => simp only [decelNode, hdr]
  | some bb =>
    cases bb
    · simp only [decelNode, hdr]
    · cases hv : (p.1.scr n).velocity with
      | none => simp only [decelNode, hdr, hv]
      | some v =>
        simp only [decelNode, hdr, hv]
        split <;> exact upd_ne _ _ _ h

theorem decelNode_skip (p : Sys × Bool) (n : ℕ)
    (h : (p.1.scr n).dragging ≠ some true) : decelNode p n = p := by
  cases hdr : (p.1.scr n).dragging with
  | none => simp only [decelNode, hdr]
  | some bb =>
    cases bb
    · simp only [decelNode, hdr]
    · exact absurd hdr h

theorem decelFold_session (L : List ℕ) (p : Sys × Bool) :
    (L.foldl decelNode p).1.draggedNode = p.1.draggedNode ∧
    (L.foldl decelNode p).1.connectedNodes = p.1.connectedNodes ∧
    (L.foldl decelNode p).1.prevDragPos = p.1.prevDragPos ∧
    (L.foldl decelNode p).1.pending = p.1.pending ∧
    (L.foldl decelNode p).1.animationId = p.1.animationId ∧
    (L.foldl decelNode p).1.nextFrameId = p.1.nextFrameId ∧
    (L.foldl decelNode p).1.live = p.1.live := by
  induction L generalizing p with
  | nil => exact ⟨rfl, rfl, rfl, rfl, rfl, rfl, rfl⟩
  | cons n L ih =>
    rw [List.foldl_cons]
    obtain ⟨h1, h2, h3, h4, h5, h6, h7⟩ := ih (decelNode p n)
    obtain ⟨g1, g2, g3, g4, g5, g6, g7⟩ := decelNode_session p n
    exact ⟨h1.trans g1, h2.trans g2, h3.trans g3, h4.trans g4,
      h5.trans g5, h6.trans g6, h7.trans g7⟩

theorem decelFold_settled (L : List ℕ) (p : Sys × Bool) (m : ℕ)
    (h : (p.1.scr m).dragging = some false) :
    (L.foldl decelNode p).1.pos m = p.1.pos m ∧
    (L.foldl decelNode p).1.scr m = p.1.scr m := by
  induction L generalizing p with
  | nil => exact ⟨rfl, rfl⟩
  | cons n L ih =>
    rw [List.foldl_cons]
    by_cases hmn : m = n
    · subst hmn
      have hskip : decelNode p m = p :=
        decelNode_skip p m (by rw [h]; simp)
      rw [hskip]
      exact ih p h
    · have hp : (decelNode p n).1.scr m = p.1.scr m := decelNode_scr_ne p n hmn
      obtain ⟨i1, i2⟩ := ih (decelNode p n) (by rw [hp]; exact h)
      exact ⟨i1.trans (decelNode_pos_ne p n hmn), i2.trans hp⟩

theorem cleanupFold_stable (L : List ℕ) (f : ℕ → Scratch) {m : ℕ}
    (hg : f m = Scratch.empty) :
    (L.foldl (fun g k => upd g k Scratch.empty) f) m = Scratch.empty := by
  induction L generalizing f with
  | nil => exact hg
  | cons n L ih =>
    rw [List.foldl_cons]
    apply ih
    by_cases hmn : m = n
    · subst hmn; simp
    · rw [upd_ne _ _ _ hmn]; exact hg

theorem cleanupFold_mem (L : List ℕ) (f : ℕ → Scratch) {m : ℕ} (h : m ∈ L) :
    (L.foldl (fun g k => upd g k Scratch.empty) f) m = Scratch.empty := by
  induction L generalizing f with
  | nil => cases h
  | cons n L ih =>
    rw [List.foldl_cons]
    by_cases hmn : m = n
    · subst hmn
      exact cleanupFold_stable L _ (by simp)
    · rcases List.mem_cons.mp h with h' | h'
      · exact absurd h' hmn
      · exact ih _ h'

theorem cleanupFold_not_mem (L : List ℕ) (f : ℕ → Scratch) {m : ℕ}
    (h : m ∉ L) :
    (L.foldl (fun g k => upd g k Scratch.empty) f) m = f m := by
  induction L generalizing f with
  | nil => rfl
  | cons n L ih =>
    rw [List.foldl_cons]
    have hmn : m ≠ n := fun h' => h (h' ▸ List.mem_cons_self n L)
    rw [ih _ (fun h' => h (List.mem_cons_of_mem _ h')), upd_ne _ _ _ hmn]

theorem updFold_stable {α : Type} (h : ℕ → α) (L : List ℕ) (f : ℕ → α)
    {m : ℕ} (hg : f m = h m) :
    (L.foldl (fun g k => upd g k (h k)) f) m = h m := by
  induction L generalizing f with
  | nil => exact hg
  | cons n L ih =>
    rw [List.foldl_cons]
    apply ih
    by_cases hmn : m = n
    · subst hmn; simp
    · rw [upd_ne _ _ _ hmn]; exact hg

theorem updFold_mem {α : Type} (h : ℕ → α) (L : List ℕ) (f : ℕ → α) {m : ℕ}
    (hm : m ∈ L) :
    (L.foldl (fun g k => upd g k (h k)) f) m = h m := by
  induction L generalizing f with
  | nil => cases hm
  | cons n L ih =>
    rw [List.foldl_cons]
    by_cases hmn : m = n
    · subst hmn
      exact updFold_stable h L _ (by simp)
    · rcases List.mem_cons.mp hm with h' | h'
      · exact absurd h' hmn
      · exact ih _ h'

theorem updFold_not_mem {α : Type} (h : ℕ → α) (L : List ℕ) (f : ℕ → α)
    {m : ℕ} (hm : m ∉ L) :
    (L.foldl (fun g k => upd g k (h k)) f) m = f m := by
  induction L generalizing f with
  | nil => rfl
  | cons n L ih =>
    rw [List.foldl_cons]
    have hmn : m ≠ n := fun h' => hm (h' ▸ List.mem_cons_self n L)
    rw [ih _ (fun h' => hm (List.mem_cons_of_mem _ h')), upd_ne _ _ _ hmn]

theorem dragHandlerNode_session (L : List ℕ) (dragPos delta : Vec2)
    (s : Sys) (n : ℕ) :
    (dragHandlerNode L dragPos delta s n).draggedNode = s.draggedNode ∧
    (dragHandlerNode L dragPos delta s n).connectedNodes = s.connectedNodes ∧
    (dragHandlerNode L dragPos delta s n).prevDragPos = s.prevDragPos ∧
    (dragHandlerNode L dragPos delta s n).pending = s.pending ∧
    (dragHandlerNode L dragPos delta s n).animationId = s.animationId ∧
    (dragHandlerNode L dragPos delta s n).nextFrameId = s.nextFrameId ∧
    (dragHandlerNode L dragPos delta s n).live = s.live := by
  exact ⟨rfl, rfl, rfl, rfl, rfl, rfl, rfl⟩

theorem dragHandlerNode_pos_ne (L : List ℕ) (dragPos delta : Vec2)
    (s : Sys) (n : ℕ) {m : ℕ} (h : m ≠ n) :
    (dragHandlerNode L dragPos delta s n).pos m = s.pos m := by
  simp only [dragHandlerNode]
  exact upd_ne _ _ _ h

theorem dragHandlerNode_scr_ne (L : List ℕ) (dragPos delta : Vec2)
    (s : Sys) (n : ℕ) {m : ℕ} (h : m ≠ n) :
    (dragHandlerNode L dragPos delta s n).scr m = s.scr m := by
  simp only [dragHandlerNode]
  exact upd_ne _ _ _ h

theorem dragFold_session (L' L : List ℕ) (dragPos delta : Vec2) (s : Sys) :
    (L'.foldl (dragHandlerNode L dragPos delta) s).draggedNode =
      s.draggedNode ∧
    (L'.foldl (dragHandlerNode L dragPos delta) s).connectedNodes =
      s.connectedNodes ∧
    (L'.foldl (dragHandlerNode L dragPos delta) s).live = s.live := by
  induction L' generalizing s with
  | nil => exact ⟨rfl, rfl, rfl⟩
  | cons n L' ih =>
    rw [List.foldl_cons]
    obtain ⟨h1, h2, h3⟩ := ih (dragHandlerNode L dragPos delta s n)
    exact ⟨h1, h2, h3⟩

theorem dragFold_pos_not_mem (L' L : List ℕ) (dragPos delta : Vec2)
    (s : Sys) {m : ℕ} (h : m ∉ L') :
    (L'.foldl (dragHandlerNode L dragPos delta) s).pos m = s.pos m := by
  induction L' generalizing s with
  | nil => rfl
  | cons n L' ih =>
    rw [List.foldl_cons]
    have hmn : m ≠ n := fun h' => h (h' ▸ List.mem_cons_self n L')
    rw [ih _ (fun h' => h (List.mem_cons_of_mem _ h'))]
    exact dragHandlerNode_pos_ne L dragPos delta s n hmn

theorem dragFold_scr_not_mem (L' L : List ℕ) (dragPos delta : Vec2)
    (s : Sys) {m : ℕ} (h : m ∉ L') :
    (L'.foldl (dragHandlerNode L dragPos delta) s).scr m = s.scr m := by
  induction L' generalizing s with
  | nil => rfl
  | cons n L' ih =>
    rw [List.foldl_cons]
    have hmn : m ≠ n := fun h' => h (h' ▸ List.mem_cons_self n L')
    rw [ih _ (fun h' => h (List.mem_cons_of_mem _ h'))]
    exact dragHandlerNode_scr_ne L dragPos delta s n hmn

theorem decelNode_vel (p : Sys × Bool) (n m : ℕ) (v' : Vec2)
    (h : ((decelNode p n).1.scr m).velocity = some v') :
    ∃ v : Vec2, (p.1.scr m).velocity = some v ∧
      Vec2.mag2 v' ≤ Vec2.mag2 v := by
  by_cases hmn : m = n
  · subst hmn
    cases hdr : (p.1.scr m).dragging with
    | none =>
      simp only [decelNode, hdr] at h
      exact ⟨v', h, le_refl _⟩
    | some bb =>
      cases bb
      · simp only [decelNode, hdr] at h
        exact ⟨v', h, le_refl _⟩
      · cases hv : (p.1.scr m).velocity with
        | none =>
          simp only [decelNode, hdr, hv] at h
          exact ⟨v', h, le_refl _⟩
        | some v =>
          refine ⟨v, rfl, ?_⟩
          have hval : v' = ⟨v.x * 0.88, v.y * 0.88⟩ := by
            simp only [decelNode, hdr, hv] at h
            split at h
            · simp at h
              exact h.symm
            · simp at h
              exact h.symm
          rw [hval]
          simp only [Vec2.mag2]
          nlinarith [mul_self_nonneg v.x, mul_self_nonneg v.y]
  · rw [decelNode_scr_ne p n hmn] at h
    exact ⟨v', h, le_refl _⟩

theorem decelFold_vel (L : List ℕ) (p : Sys × Bool) (m : ℕ) (v' : Vec2)
    (h : ((L.foldl decelNode p).1.scr m).velocity = some v') :
    ∃ v : Vec2, (p.1.scr m).velocity = some v ∧
      Vec2.mag2 v' ≤ Vec2.mag2 v := by
  induction L generalizing p v' with
  | nil => exact ⟨v', h, le_refl _⟩
  | cons n L ih =>
    rw [List.foldl_cons] at h
    obtain ⟨v1, hv1, hle1⟩ := ih (decelNode p n) v' h
    obtain ⟨v0, hv0, hle0⟩ := decelNode_vel p n m v1 hv1
    exact ⟨v0, hv0, hle1.trans hle0⟩

theorem decelNode_settle (p : Sys × Bool) (n : ℕ) (v : Vec2)
    (hd : (p.1.scr n).dragging = some true)
    (hv : (p.1.scr n).velocity = some v)
    (hx : |v.x * 0.88| ≤ 0.1) (hy : |v.y * 0.88| ≤ 0.1) :
    decelNode p n =
      ({ p.1 with
          scr := upd p.1.scr n
            { p.1.scr n with velocity := some ⟨v.x * 0.88, v.y * 0.88⟩, dragging := some false } }, p.2) := by
  simp only [decelNode, hd, hv]
  rw [if_neg]
  push_neg
  exact ⟨hx, hy⟩

theorem decelFold_small (L : List ℕ) (p : Sys × Bool) (m : ℕ) (v : Vec2)
    (hm : m ∈ L)
    (hd : (p.1.scr m).dragging = some true)
    (hv : (p.1.scr m).velocity = some v)
    (hx : |v.x * 0.88| ≤ 0.1) (hy : |v.y * 0.88| ≤ 0.1) :
    (L.foldl decelNode p).1.pos m = p.1.pos m ∧
    (L.foldl decelNode p).1.scr m =
      { p.1.scr m with velocity := some ⟨v.x * 0.88, v.y * 0.88⟩, dragging := some false } := by
  induction L generalizing p with
  | nil => cases hm
  | cons n L ih =>
    rw [List.foldl_cons]
    by_cases hmn : m = n
    · subst hmn
      rw [decelNode_settle p m v hd hv hx hy]
      set σ : Scratch :=
        { p.1.scr m with velocity := some ⟨v.x * 0.88, v.y * 0.88⟩, dragging := some false } with hσ
      have hscr : (({ p.1 with scr := upd p.1.scr m σ }, p.2) :
          Sys × Bool).1.scr m = σ := by simp
      obtain ⟨i1, i2⟩ := decelFold_settled L
        ({ p.1 with scr := upd p.1.scr m σ }, p.2) m (by rw [hscr, hσ])
      refine ⟨i1, ?_⟩
      rw [i2, hscr]
    · have hp : (decelNode p n).1.scr m = p.1.scr m := decelNode_scr_ne p n hmn
      have hmem : m ∈ L := by
        rcases List.mem_cons.mp hm with h' | h'
        · exact absurd h' hmn
        · exact h'
      obtain ⟨i1, i2⟩ := ih (decelNode p n) hmem
        (by rw [hp]; exact hd) (by rw [hp]; exact hv)
      exact ⟨i1.trans (decelNode_pos_ne p n hmn), i2.trans (by rw [hp])⟩

theorem decelFold_zero (L : List ℕ) (p : Sys × Bool)
    (H : ∀ k ∈ L, (p.1.scr k).velocity = some ⟨0, 0⟩ ∨
      (p.1.scr k).dragging ≠ some true) :
    (L.foldl decelNode p).2 = p.2 ∧
    (∀ m, (L.foldl decelNode p).1.pos m = p.1.pos m) ∧
    (∀ m, ((L.foldl decelNode p).1.scr m).velocity =
      (p.1.scr m).velocity) := by
  induction L generalizing p with
  | nil => exact ⟨rfl, fun _ => rfl, fun _ => rfl⟩
  | cons n L ih =>
    rw [List.foldl_cons]
    by_cases hd : (p.1.scr n).dragging = some true
    · have hv : (p.1.scr n).velocity = some ⟨0, 0⟩ := by
        rcases H n (List.mem_cons_self n L) with h | h
        · exact h
        · exact absurd hd h
      have hzx : |(0 : ℝ) * 0.88| ≤ 0.1 := by norm_num
      have hset := decelNode_settle p n ⟨0, 0⟩ hd hv hzx hzx
      have hvec : (⟨(0 : ℝ) * 0.88, (0 : ℝ) * 0.88⟩ : Vec2) = ⟨0, 0⟩ := by
        norm_num
      rw [hvec] at hset
      set SS : Scratch := { p.1.scr n with velocity := some ⟨0, 0⟩, dragging := some false } with hSS
      have hfix : ∀ m, ((upd p.1.scr n SS) m).velocity =
          (p.1.scr m).velocity := by
        intro m
        by_cases hmn : m = n
        · subst hmn
          rw [upd_same, hv]
        · rw [upd_ne _ _ _ hmn]
      have H' : ∀ k ∈ L, ((upd p.1.scr n SS) k).velocity = some ⟨0, 0⟩ ∨
          ((upd p.1.scr n SS) k).dragging ≠ some true := by
        intro k hk
        by_cases hkn : k = n
        · subst hkn
          right
          rw [upd_same]
          simp
        · rw [upd_ne _ _ _ hkn]
          exact H k (List.mem_cons_of_mem _ hk)
      rw [hset]
      obtain ⟨i1, i2, i3⟩ := ih
        (({ p.1 with scr := upd p.1.scr n SS }, p.2) : Sys × Bool) H'
      exact ⟨i1, fun m => i2 m, fun m => (i3 m).trans (hfix m)⟩
    · rw [decelNode_skip p n hd]
      apply ih
      intro k hk
      exact H k (List.mem_cons_of_mem _ hk)

theorem decelerate_none (s : Sys) (h : s.connectedNodes = none) :
    decelerate s = s := by
  rw [decelerate, h]

theorem decelerate_eq (s : Sys) (L : List ℕ) (hc : s.connectedNodes = some L) :
    decelerate s =
      (if (L.foldl decelNode (s, false)).2 then
        { (L.foldl decelNode (s, false)).1 with
          animationId := some (L.foldl decelNode (s, false)).1.nextFrameId
          pending := some (L.foldl decelNode (s, false)).1.nextFrameId
          nextFrameId := (L.foldl decelNode (s, false)).1.nextFrameId + 1 }
      else
        { (L.foldl decelNode (s, false)).1 with
          scr := L.foldl (fun f m => upd f m Scratch.empty)
            (L.foldl decelNode (s, false)).1.scr
          draggedNode := none
          connectedNodes := none
          prevDragPos := none }) := by
  rw [decelerate, hc]

theorem decelerate_fields (s : Sys) :
    ((decelerate s).draggedNode = s.draggedNode ∧
     (decelerate s).connectedNodes = s.connectedNodes) ∨
    ((decelerate s).draggedNode = none ∧
     (decelerate s).connectedNodes = none) := by
  cases hc : s.connectedNodes with
  | none =>
    left
    rw [decelerate_none s hc, hc]
    exact ⟨rfl, rfl⟩
  | some L =>
    rw [decelerate_eq s L hc]
    obtain ⟨h1, h2, _⟩ := decelFold_session L (s, false)
    by_cases hmov : (L.foldl decelNode (s, false)).2 = true
    · rw [if_pos hmov]
      left
      exact ⟨h1, h2.trans hc⟩
    · rw [if_neg hmov]
      right
      exact ⟨rfl, rfl⟩

theorem decelerate_cleanup (s : Sys) (L : List ℕ)
    (hc : s.connectedNodes = some L)
    (hdone : (decelerate s).connectedNodes = none) :
    ∀ m ∈ L, (decelerate s).scr m = Scratch.empty := by
  intro m hm
  rw [decelerate_eq s L hc] at hdone ⊢
  by_cases hmov : (L.foldl decelNode (s, false)).2 = true
  · exfalso
    rw [if_pos hmov] at hdone
    obtain ⟨_, h2, _⟩ := decelFold_session L (s, false)
    simp only at hdone
    rw [h2] at hdone
    rw [hc] at hdone
    cases hdone
  · rw [if_neg hmov]
    exact cleanupFold_mem L _ hm

theorem grabStep_fields (adj : ℕ → List ℕ) (s : Sys) (n : ℕ) :
    (grabStep adj s n).draggedNode = some n ∧
    (grabStep adj s n).connectedNodes =
      some ((adj n).filter (fun m => m ≠ n && s.live m)) ∧
    (grabStep adj s n).prevDragPos = some (s.pos n) ∧
    (grabStep adj s n).pending = s.pending ∧
    (grabStep adj s n).animationId = s.animationId ∧
    (grabStep adj s n).live = s.live ∧
    (∀ m, (grabStep adj s n).pos m = s.pos m) := by
  exact ⟨rfl, rfl, rfl, rfl, rfl, rfl, fun _ => rfl⟩

theorem grabStep_scr_mem (adj : ℕ → List ℕ) (s : Sys) (n : ℕ) {m : ℕ}
    (hm : m ∈ (adj n).filter (fun m => m ≠ n && s.live m)) :
    (grabStep adj s n).scr m =
      { velocity := some ⟨0, 0⟩
        dragging := some true
        originalDist := some (dist2d (s.pos m) (s.pos n))
        angle := some (atan2 ((s.pos m).y - (s.pos n).y)
                             ((s.pos m).x - (s.pos n).x)) } := by
  show ((((adj n).filter (fun m => m ≠ n && s.live m)).foldl
      (fun f m => upd f m
        { velocity := some ⟨0, 0⟩
          dragging := some true
          originalDist := some (dist2d (s.pos m) (s.pos n))
          angle := some (atan2 ((s.pos m).y - (s.pos n).y)
                               ((s.pos m).x - (s.pos n).x)) }) s.scr) m) = _
  exact updFold_mem _ _ _ hm

theorem grabStep_scr_not_mem (adj : ℕ → List ℕ) (s : Sys) (n : ℕ) {m : ℕ}
    (hm : m ∉ (adj n).filter (fun m => m ≠ n && s.live m)) :
    (grabStep adj s n).scr m = s.scr m := by
  show ((((adj n).filter (fun m => m ≠ n && s.live m)).foldl
      (fun f m => upd f m
        { velocity := some ⟨0, 0⟩
          dragging := some true
          originalDist := some (dist2d (s.pos m) (s.pos n))
          angle := some (atan2 ((s.pos m).y - (s.pos n).y)
                               ((s.pos m).x - (s.pos n).x)) }) s.scr) m) = _
  exact updFold_not_mem _ _ _ hm

theorem dragHandler_fields (s : Sys) :
    (dragHandler s).draggedNode = s.draggedNode ∧
    (dragHandler s).connectedNodes = s.connectedNodes ∧
    (dragHandler s).live = s.live := by
  cases hd : s.draggedNode with
  | none => simp [dragHandler, hd]
  | some d =>
    cases hc : s.connectedNodes with
    | none => simp [dragHandler, hd, hc]
    | some L =>
      cases hp : s.prevDragPos with
      | none => simp [dragHandler, hd, hc, hp]
      | some prev =>
        simp only [dragHandler, hd, hc, hp]
        obtain ⟨h1, h2, h3⟩ := dragFold_session L L (s.pos d)
          ⟨(s.pos d).x - prev.x, (s.pos d).y - prev.y⟩ s
        exact ⟨h1.trans hd, h2.trans hc, h3⟩

theorem dragHandler_pos_not_mem (s : Sys) (L : List ℕ)
    (hc : s.connectedNodes = some L) {m : ℕ} (hm : m ∉ L) :
    (dragHandler s).pos m = s.pos m := by
  cases hd : s.draggedNode with
  | none => simp only [dragHandler, hd]
  | some d =>
    cases hp : s.prevDragPos with
    | none => simp only [dragHandler, hd, hc, hp]
    | some prev =>
      simp only [dragHandler, hd, hc, hp]
      exact dragFold_pos_not_mem L L (s.pos d)
        ⟨(s.pos d).x - prev.x, (s.pos d).y - prev.y⟩ s hm

theorem freeHandler_guard (s : Sys)
    (h : s.draggedNode = none ∨ s.connectedNodes = none) :
    freeHandler s = s := by
  rcases h with h | h
  · simp only [freeHandler, h]
  · cases hd : s.draggedNode with
    | none => simp only [freeHandler, hd]
    | some d => simp only [freeHandler, hd, h]

theorem freeHandler_eq (s : Sys) (d : ℕ) (L : List ℕ)
    (hd : s.draggedNode = some d) (hc : s.connectedNodes = some L) :
    freeHandler s =
      decelerate
        (match s.animationId with
         | some j =>
           { s with pending := if s.pending = some j then none else s.pending }
         | none => s) := by
  simp only [freeHandler, hd, hc]

theorem frameStep_none (s : Sys) (h : s.pending = none) : frameStep s = s := by
  simp only [frameStep, h]

theorem frameStep_some (s : Sys) (i : ℕ) (h : s.pending = some i) :
    frameStep s = decelerate { s with pending := none } := by
  simp only [frameStep, h]

theorem reachable_dragged_not_connected (adj : ℕ → List ℕ) (s : Sys)
    (h : Reachable adj s) :
    ∀ d L, s.draggedNode = some d → s.connectedNodes = some L → d ∉ L := by
  induction h with
  | init pos live =>
    intro d L _ hc
    cases hc
  | next s e hprev ih =>
    intro d L hd hc
    cases e with
    | grab n =>
      obtain ⟨g1, g2, _⟩ := grabStep_fields adj s n
      rw [show step adj s (Ev.grab n) = grabStep adj s n from rfl] at hd hc
      rw [g1] at hd
      rw [g2] at hc
      cases hd
      cases hc
      intro hmem
      rw [List.mem_filter] at hmem
      simp at hmem
    | drag n p =>
      rw [show step adj s (Ev.drag n p) =
        dragHandler { s with pos := upd s.pos n p } from rfl] at hd hc
      obtain ⟨h1, h2, _⟩ := dragHandler_fields { s with pos := upd s.pos n p }
      rw [h1] at hd
      rw [h2] at hc
      exact ih d L hd hc
    | free =>
      rw [show step adj s Ev.free = freeHandler s from rfl] at hd hc
      by_cases hg : s.draggedNode = none ∨ s.connectedNodes = none
      · rw [freeHandler_guard s hg] at hd hc
        exact ih d L hd hc
      · push_neg at hg
        obtain ⟨hd0, hc0⟩ := hg
        cases hdv : s.draggedNode with
        | none => exact absurd hdv hd0
        | some d0 =>
          cases hcv : s.connectedNodes with
          | none => exact absurd hcv hc0
          | some L0 =>
            rw [freeHandler_eq s d0 L0 hdv hcv] at hd hc
            set t : Sys :=
              (match s.animationId with
               | some j =>
                 { s with
                   pending := if s.pending = some j then none else s.pending }
               | none => s) with ht
            have htf : t.draggedNode = s.draggedNode ∧
                t.connectedNodes = s.connectedNodes := by
              rw [ht]
              cases s.animationId <;> exact ⟨rfl, rfl⟩
            rcases decelerate_fields t with ⟨f1, f2⟩ | ⟨f1, f2⟩
            · rw [f1, htf.1] at hd
              rw [f2, htf.2] at hc
              exact ih d L hd hc
            · rw [f2] at hc
              cases hc
    | frame =>
      rw [show step adj s Ev.frame = frameStep s from rfl] at hd hc
      cases hpv : s.pending with
      | none =>
        rw [frameStep_none s hpv] at hd hc
        exact ih d L hd hc
      | some i =>
        rw [frameStep_some s i hpv] at hd hc
        rcases decelerate_fields { s with pending := none } with
          ⟨f1, f2⟩ | ⟨f1, f2⟩
        · rw [f1] at hd
          rw [f2] at hc
          exact ih d L hd hc
        · rw [f2] at hc
          cases hc
    | remove n =>
      exact ih d L hd hc

theorem decelNode_move (p : Sys × Bool) (n : ℕ) (v : Vec2)
    (hd : (p.1.scr n).dragging = some true)
    (hv : (p.1.scr n).velocity = some v)
    (hcond : 0.1 < |v.x * 0.88| ∨ 0.1 < |v.y * 0.88|) :
    decelNode p n =
      ({ p.1 with
          pos := upd p.1.pos n
            ⟨(p.1.pos n).x + v.x * 0.88, (p.1.pos n).y + v.y * 0.88⟩
          scr := upd p.1.scr n
            { p.1.scr n with velocity := some ⟨v.x * 0.88, v.y * 0.88⟩ } },
        true) := by
  simp only [decelNode, hd, hv]
  rw [if_pos hcond]

theorem dragFold_frame (L' L : List ℕ) (dragPos delta : Vec2) (s : Sys) :
    (L'.foldl (dragHandlerNode L dragPos delta) s).prevDragPos =
      s.prevDragPos ∧
    (L'.foldl (dragHandlerNode L dragPos delta) s).pending = s.pending ∧
    (L'.foldl (dragHandlerNode L dragPos delta) s).animationId =
      s.animationId ∧
    (L'.foldl (dragHandlerNode L dragPos delta) s).nextFrameId =
      s.nextFrameId := by
  induction L' generalizing s with
  | nil => exact ⟨rfl, rfl, rfl, rfl⟩
  | cons n L' ih => exact ih (dragHandlerNode L dragPos delta s n)

theorem dragHandler_frame (s : Sys) :
    (dragHandler s).pending = s.pending ∧
    (dragHandler s).animationId = s.animationId ∧
    (dragHandler s).nextFrameId = s.nextFrameId := by
  cases hd : s.draggedNode with
  | none => simp [dragHandler, hd]
  | some d =>
    cases hc : s.connectedNodes with
    | none => simp [dragHandler, hd, hc]
    | some L =>
      cases hp : s.prevDragPos with
      | none => simp [dragHandler, hd, hc, hp]
      | some prev =>
        simp only [dragHandler, hd, hc, hp]
        obtain ⟨_, h2, h3, h4⟩ := dragFold_frame L L (s.pos d)
          ⟨(s.pos d).x - prev.x, (s.pos d).y - prev.y⟩ s
        exact ⟨h2, h3, h4⟩

theorem dragHandler_prevDragPos (s : Sys) (d : ℕ) (L : List ℕ) (prev : Vec2)
    (hd : s.draggedNode = some d) (hc : s.connectedNodes = some L)
    (hp : s.prevDragPos = some prev) :
    (dragHandler s).prevDragPos = some (s.pos d) := by
  simp only [dragHandler, hd, hc, hp]

theorem decelerate_live (s : Sys) : (decelerate s).live = s.live := by
  cases hc : s.connectedNodes with
  | none => rw [decelerate_none s hc]
  | some L =>
    rw [decelerate_eq s L hc]
    obtain ⟨_, _, _, _, _, _, h7⟩ := decelFold_session L (s, false)
    by_cases hmov : (L.foldl decelNode (s, false)).2 = true
    · rw [if_pos hmov]
      exact h7
    · rw [if_neg hmov]
      exact h7

/-- Concrete four-node topology: an edge between nodes 0 and 1 and an
edge between nodes 2 and 3. -/
def adj0 : ℕ → List ℕ := fun i =>
  if i = 0 then [1] else if i = 1 then [0]
  else if i = 2 then [3] else if i = 3 then [2] else []

/-- Concrete initial positions: node 0 at the origin, node 1 at
`(100, 0)`, nodes 2 and 3 at `(200, 200)` and `(300, 200)`. -/
noncomputable def posInit : ℕ → Vec2 := fun i =>
  if i = 0 then ⟨0, 0⟩ else if i = 1 then ⟨100, 0⟩
  else if i = 2 then ⟨200, 200⟩ else if i = 3 then ⟨300, 200⟩ else ⟨0, 0⟩

/-- The idle initial state over the concrete world. -/
noncomputable def sT0 : Sys := Sys.initial posInit (fun _ => true)

/-- Grab node 0 (session one). -/
noncomputable def sC1a : Sys := step adj0 sT0 (.grab 0)

/-- Drag node 0 to `(-100, 0)`. -/
noncomputable def sC1b : Sys := step adj0 sC1a (.drag 0 ⟨-100, 0⟩)

/-- Release node 0: the synchronous first `decelerate` call leaves
node 1 moving and schedules an animation frame. -/
noncomputable def sC1c : Sys := step adj0 sC1b .free

/-- Grab node 2 while session one's decay frame is still pending. -/
noncomputable def sC1d : Sys := step adj0 sC1c (.grab 2)

/-- The stale animation frame of the cancelled session fires. -/
noncomputable def sC1e : Sys := step adj0 sC1d .frame

theorem sqrt_10000 : Real.sqrt 10000 = 100 := by
  rw [show (10000 : ℝ) = 100 ^ 2 by norm_num]
  exact Real.sqrt_sq (by norm_num)

theorem sqrt_40000 : Real.sqrt 40000 = 200 := by
  rw [show (40000 : ℝ) = 200 ^ 2 by norm_num]
  exact Real.sqrt_sq (by norm_num)

theorem sC1a_filter :
    (adj0 0).filter (fun m => m ≠ 0 && sT0.live m) = [1] := rfl

theorem sC1a_scr1 : sC1a.scr 1 =
    { velocity := some ⟨0, 0⟩
      dragging := some true
      originalDist := some (dist2d (sT0.pos 1) (sT0.pos 0))
      angle := some (atan2 ((sT0.pos 1).y - (sT0.pos 0).y)
                           ((sT0.pos 1).x - (sT0.pos 0).x)) } := by
  have h := grabStep_scr_mem adj0 sT0 0 (m := 1)
    (by rw [sC1a_filter]; exact List.mem_singleton.mpr rfl)
  exact h

theorem sC1a_originalDist :
    dist2d (sT0.pos 1) (sT0.pos 0) = 100 := by
  show dist2d ⟨100, 0⟩ ⟨0, 0⟩ = 100
  rw [dist2d]
  norm_num
  exact sqrt_10000

theorem sC1a_dragged : sC1a.draggedNode = some 0 := rfl

theorem sC1a_conn : sC1a.connectedNodes = some [1] := rfl

theorem sC1a_prev : sC1a.prevDragPos = some ⟨0, 0⟩ := rfl

theorem sC1a_pos1 : sC1a.pos 1 = ⟨100, 0⟩ := rfl

theorem sC1a_pending : sC1a.pending = none := rfl

theorem sC1a_anim : sC1a.animationId = none := rfl

theorem sC1a_next : sC1a.nextFrameId = 1 := rfl

theorem followVel_eval :
    followVel ⟨0, 0⟩ ⟨-100 - 0, 0 - 0⟩ = (⟨-30, 0⟩ : Vec2) := by
  simp only [followVel, followStrength, Vec2.mk.injEq]
  norm_num

theorem springTerm_eval :
    springTerm ⟨100, 0⟩ ⟨-100, 0⟩ 100 = (⟨-10, 0⟩ : Vec2) := by
  simp only [springTerm]
  rw [show ((100 : ℝ) - -100) * (100 - -100) + ((0 : ℝ) - 0) * (0 - 0) =
    40000 by norm_num]
  rw [sqrt_40000]
  rw [if_pos (by norm_num : (0 : ℝ) < 200)]
  simp only [Vec2.mk.injEq]
  norm_num

theorem vec_sum_eval : (⟨-30, 0⟩ + ⟨-10, 0⟩ : Vec2) = ⟨-40, 0⟩ := by
  simp only [Vec2.add_def, Vec2.mk.injEq]
  norm_num

theorem dampVel_eval : dampVel ⟨-40, 0⟩ = (⟨-34, 0⟩ : Vec2) := by
  simp only [dampVel, Vec2.mk.injEq]
  norm_num

theorem sC1b_scr1 : sC1b.scr 1 =
    { sC1a.scr 1 with velocity := some ⟨-34, 0⟩ } ∧
    sC1b.pos 1 = ⟨66, 0⟩ := by
  have harg : sC1b = dragHandler { sC1a with pos := upd sC1a.pos 0 ⟨-100, 0⟩ } := rfl
  have hd : ({ sC1a with pos := upd sC1a.pos 0 ⟨-100, 0⟩ } : Sys).draggedNode = some 0 := sC1a_dragged
  have hc : ({ sC1a with pos := upd sC1a.pos 0 ⟨-100, 0⟩ } : Sys).connectedNodes = some [1] := sC1a_conn
  have hp : ({ sC1a with pos := upd sC1a.pos 0 ⟨-100, 0⟩ } : Sys).prevDragPos = some ⟨0, 0⟩ := sC1a_prev
  have hupd1 : upd sC1a.pos 0 ⟨-100, 0⟩ 1 = ⟨100, 0⟩ := by
    rw [upd_ne _ _ _ (by norm_num : (1 : ℕ) ≠ 0)]
    exact sC1a_pos1
  have hvel0 : (sC1a.scr 1).velocity.getD ⟨0, 0⟩ = ⟨0, 0⟩ := by
    rw [sC1a_scr1]
    rfl
  have hod : readOriginalDist (sC1a.scr 1) = 100 := by
    rw [sC1a_scr1]
    simp only [readOriginalDist]
    rw [sC1a_originalDist]
    norm_num
  rw [harg]
  rw [dragHandler.eq_def, hd, hc, hp]
  simp only [dragHandlerNode, List.foldl_cons, List.foldl_nil, upd_same,
    if_true]
  rw [hvel0, hupd1, hod, followVel_eval, springTerm_eval, vec_sum_eval,
    dampVel_eval]
  refine ⟨rfl, ?_⟩
  simp only [Vec2.mk.injEq]
  norm_num

theorem sC1b_dragged : sC1b.draggedNode = some 0 :=
  (dragHandler_fields _).1.trans sC1a_dragged

theorem sC1b_conn : sC1b.connectedNodes = some [1] :=
  (dragHandler_fields _).2.1.trans sC1a_conn

theorem sC1b_live : sC1b.live = sT0.live :=
  (dragHandler_fields _).2.2

theorem sC1b_pending : sC1b.pending = none :=
  (dragHandler_frame _).1.trans sC1a_pending

theorem sC1b_anim : sC1b.animationId = none :=
  (dragHandler_frame _).2.1.trans sC1a_anim

theorem sC1b_next : sC1b.nextFrameId = 1 :=
  (dragHandler_frame _).2.2.trans sC1a_next

theorem sC1b_dragging1 : (sC1b.scr 1).dragging = some true := by
  rw [sC1b_scr1.1, sC1a_scr1]

theorem sC1b_velocity1 : (sC1b.scr 1).velocity = some ⟨-34, 0⟩ := by
  rw [sC1b_scr1.1]

theorem sC1b_cond :
    0.1 < |((⟨-34, 0⟩ : Vec2)).x * 0.88| ∨
      0.1 < |((⟨-34, 0⟩ : Vec2)).y * 0.88| := by
  left
  show (0.1 : ℝ) < |(-34 : ℝ) * 0.88|
  rw [show ((-34 : ℝ) * 0.88) = -29.92 by norm_num]
  rw [abs_of_neg (by norm_num : (-29.92 : ℝ) < 0)]
  norm_num

theorem sC1c_eq : sC1c = decelerate sC1b := by
  show freeHandler sC1b = _
  rw [freeHandler_eq sC1b 0 [1] sC1b_dragged sC1b_conn]
  rw [sC1b_anim]

theorem sC1c_pending : sC1c.pending = some 1 := by
  rw [sC1c_eq, decelerate_eq sC1b [1] sC1b_conn]
  simp only [List.foldl_cons, List.foldl_nil]
  rw [decelNode_move (sC1b, false) 1 ⟨-34, 0⟩ sC1b_dragging1 sC1b_velocity1
    sC1b_cond]
  simp only [if_true]
  rw [sC1b_next]

theorem sC1c_dragged : sC1c.draggedNode = some 0 := by
  rw [sC1c_eq, decelerate_eq sC1b [1] sC1b_conn]
  simp only [List.foldl_cons, List.foldl_nil]
  rw [decelNode_move (sC1b, false) 1 ⟨-34, 0⟩ sC1b_dragging1 sC1b_velocity1
    sC1b_cond]
  simp only [if_true]
  exact sC1b_dragged

theorem sC1c_conn : sC1c.connectedNodes = some [1] := by
  rw [sC1c_eq, decelerate_eq sC1b [1] sC1b_conn]
  simp only [List.foldl_cons, List.foldl_nil]
  rw [decelNode_move (sC1b, false) 1 ⟨-34, 0⟩ sC1b_dragging1 sC1b_velocity1
    sC1b_cond]
  simp only [if_true]
  exact sC1b_conn

theorem sC1c_live : sC1c.live = sT0.live := by
  rw [sC1c_eq, decelerate_live, sC1b_live]

theorem sC1d_filter :
    (adj0 2).filter (fun m => m ≠ 2 && sC1c.live m) = [3] := by
  have h3 : sC1c.live 3 = true := by
    rw [sC1c_live]
    rfl
  show List.filter (fun m => m ≠ 2 && sC1c.live m) [3] = [3]
  simp [List.filter, h3]

theorem sC1d_dragged : sC1d.draggedNode = some 2 := rfl

theorem sC1d_pending : sC1d.pending = some 1 :=
  (grabStep_fields adj0 sC1c 2).2.2.2.1.trans sC1c_pending

theorem sC1d_conn : sC1d.connectedNodes = some [3] := by
  have h := (grabStep_fields adj0 sC1c 2).2.1
  rw [sC1d_filter] at h
  exact h

theorem sC1d_scr3 : sC1d.scr 3 =
    { velocity := some ⟨0, 0⟩
      dragging := some true
      originalDist := some (dist2d (sC1c.pos 3) (sC1c.pos 2))
      angle := some (atan2 ((sC1c.pos 3).y - (sC1c.pos 2).y)
                           ((sC1c.pos 3).x - (sC1c.pos 2).x)) } := by
  exact grabStep_scr_mem adj0 sC1c 2 (m := 3)
    (by rw [sC1d_filter]; exact List.mem_singleton.mpr rfl)

theorem sC1d_dragging3 : (sC1d.scr 3).dragging = some true := by
  rw [sC1d_scr3]

theorem sC1d_velocity3 : (sC1d.scr 3).velocity = some ⟨0, 0⟩ := by
  rw [sC1d_scr3]

theorem sC1e_eq : sC1e = decelerate { sC1d with pending := none } := by
  show frameStep sC1d = _
  exact frameStep_some sC1d 1 sC1d_pending

theorem sC1e_zero_small :
    |((⟨0, 0⟩ : Vec2)).x * 0.88| ≤ 0.1 := by
  show |(0 : ℝ) * 0.88| ≤ 0.1
  norm_num

theorem sC1e_conn_aux :
    ({ sC1d with pending := none } : Sys).connectedNodes = some [3] :=
  sC1d_conn

theorem sC1e_dragged : sC1e.draggedNode = none := by
  rw [sC1e_eq,
    decelerate_eq ({ sC1d with pending := none }) [3] sC1e_conn_aux]
  simp only [List.foldl_cons, List.foldl_nil]
  rw [decelNode_settle ({ sC1d with pending := none }, false) 3 ⟨0, 0⟩
    sC1d_dragging3 sC1d_velocity3 sC1e_zero_small sC1e_zero_small]
  simp only [Bool.false_eq_true, if_false]

theorem sC1e_scr3 : sC1e.scr 3 = Scratch.empty := by
  rw [sC1e_eq,
    decelerate_eq ({ sC1d with pending := none }) [3] sC1e_conn_aux]
  simp only [List.foldl_cons, List.foldl_nil]
  rw [decelNode_settle ({ sC1d with pending := none }, false) 3 ⟨0, 0⟩
    sC1d_dragging3 sC1d_velocity3 sC1e_zero_small sC1e_zero_small]
  simp only [Bool.false_eq_true, if_false]
  rw [upd_same]

/-- Claim C3 counterexample.  The claim states that if the dragged node
disappears mid-session the session is aborted, transitions directly to
Idle, and all transient state is cleared.  In the code no handler for
node removal is registered at all: after grabbing node 0 (with connected
node 1) and then removing node 0, the session variables still hold the
dragged node and the connected set, and node 1 still carries its
transient scratch fields — nothing was aborted or cleared. -/
theorem claim_C3_counterexample :
    (step adj0 sC1a (Ev.remove 0)).live 0 = false ∧
    (step adj0 sC1a (Ev.remove 0)).draggedNode = some 0 ∧
    ((step adj0 sC1a (Ev.remove 0)).scr 1).dragging = some true ∧
    ((step adj0 sC1a (Ev.remove 0)).scr 1).velocity = some ⟨0, 0⟩ ∧
    (step adj0 sC1a (Ev.remove 0)).connectedNodes = some [1] := by
  refine ⟨?_, ?_, ?_, ?_, ?_⟩
  · show upd sC1a.live 0 false 0 = false
    rw [upd_same]
  · exact sC1a_dragged
  · show (sC1a.scr 1).dragging = some true
    rw [sC1a_scr1]
  · show (sC1a.scr 1).velocity = some ⟨0, 0⟩
    rw [sC1a_scr1]
  · exact sC1a_conn

/-- Claim C3, amended.  The code registers no handler for node removal:
removing any node (the dragged node included) changes only that node's
liveness and leaves every piece of the drag session untouched — the
session variables, every node's scratch fields and every position are
exactly as before, so the session is neither aborted nor cleared, and a
removed connected node is not skipped (it stays in the captured set). -/
theorem claim_C3_amended (adj : ℕ → List ℕ) (s : Sys) (n : ℕ) :
    (step adj s (Ev.remove n)).draggedNode = s.draggedNode ∧
    (step adj s (Ev.remove n)).connectedNodes = s.connectedNodes ∧
    (step adj s (Ev.remove n)).prevDragPos = s.prevDragPos ∧
    (step adj s (Ev.remove n)).pending = s.pending ∧
    (step adj s (Ev.remove n)).animationId = s.animationId ∧
    (∀ m, (step adj s (Ev.remove n)).scr m = s.scr m) ∧
    (∀ m, (step adj s (Ev.remove n)).pos m = s.pos m) ∧
    (step adj s (Ev.remove n)).live = upd s.live n false :=
  ⟨rfl, rfl, rfl, rfl, rfl, fun _ => rfl, fun _ => rfl, rfl⟩

/-- Claim C7.  The connected set is captured exactly once, by the grab
handler, as the filtered adjacency snapshot which never contains the
dragged node itself; a drag or removal never changes it; a free or
animation-frame event either leaves it unchanged or resets it to `none`
(whole-session teardown) but never to a different set; and no event
other than grab consults the topology at all (the transition functions
for drag, free, frame and remove are independent of the adjacency). -/
theorem claim_C7 (adj adj2 : ℕ → List ℕ) (s : Sys) (n : ℕ) (p : Vec2) :
    ((step adj s (Ev.grab n)).connectedNodes =
       some ((adj n).filter (fun m => m ≠ n && s.live m)) ∧
     n ∉ (adj n).filter (fun m => m ≠ n && s.live m)) ∧
    (step adj s (Ev.drag n p)).connectedNodes = s.connectedNodes ∧
    (step adj s (Ev.remove n)).connectedNodes = s.connectedNodes ∧
    ((step adj s Ev.free).connectedNodes = s.connectedNodes ∨
      (step adj s Ev.free).connectedNodes = none) ∧
    ((step adj s Ev.frame).connectedNodes = s.connectedNodes ∨
      (step adj s Ev.frame).connectedNodes = none) ∧
    (step adj s (Ev.drag n p) = step adj2 s (Ev.drag n p) ∧
     step adj s Ev.free = step adj2 s Ev.free ∧
     step adj s Ev.frame = step adj2 s Ev.frame ∧
     step adj s (Ev.remove n) = step adj2 s (Ev.remove n)) := by
  refine ⟨⟨rfl, ?_⟩, ?_, rfl, ?_, ?_, rfl, rfl, rfl, rfl⟩
  · intro hmem
    rw [List.mem_filter] at hmem
    simp at hmem
  · exact (dragHandler_fields _).2.1
  · show (freeHandler s).connectedNodes = s.connectedNodes ∨
      (freeHandler s).connectedNodes = none
    by_cases hg : s.draggedNode = none ∨ s.connectedNodes = none
    · left
      rw [freeHandler_guard s hg]
    · push_neg at hg
      cases hdv : s.draggedNode with
      | none => exact absurd hdv hg.1
      | some d =>
        cases hcv : s.connectedNodes with
        | none => exact absurd hcv hg.2
        | some L =>
          rw [freeHandler_eq s d L hdv hcv]
          have ht : (match s.animationId with
              | some j => { s with pending :=
                  if s.pending = some j then none else s.pending }
              | none => s).connectedNodes = s.connectedNodes := by
            cases s.animationId <;> rfl
          rcases decelerate_fields (match s.animationId with
              | some j => { s with pending :=
                  if s.pending = some j then none else s.pending }
              | none => s) with ⟨_, f2⟩ | ⟨_, f2⟩
          · left
            exact f2.trans (ht.trans hcv)
          · right
            exact f2
  · show (frameStep s).connectedNodes = s.connectedNodes ∨
      (frameStep s).connectedNodes = none
    cases hpv : s.pending with
    | none =>
      left
      rw [frameStep_none s hpv]
    | some i =>
      rw [frameStep_some s i hpv]
      rcases decelerate_fields { s with pending := none } with
        ⟨_, f2⟩ | ⟨_, f2⟩
      · left
        exact f2
      · right
        exact f2

/-- Claim C2 counterexample.  For a node released with velocity
`(1.0, 0)` the claim asserts both that the number of decay frames to
settle equals `⌈log(0.1/v0)/log(0.88)⌉` and that it is exactly `18` —
but the ceiling evaluates to `19`, not `18`.  On the code, the node's
`_dragging` flag is cleared on the 19th `decelerate` call (the
synchronous call in the release handler plus 18 scheduled frames), and
the node's position changes in exactly 18 of those calls; no single
count satisfies both halves of the claim. -/
theorem claim_C2_counterexample :
    settleCalls 1 = 19 ∧
    movingFrames 1 = 18 ∧
    ⌈Real.log ((0.1 : ℝ) / 1) / Real.log 0.88⌉ = 19 ∧
    (19 : ℤ) ≠ 18 :=
  ⟨settleCalls_at_one, movingFrames_at_one, ceil_formula_at_one, by decide⟩

/-- Claim C2, amended.  For a connected node released with velocity
`(v0, 0)`, the number of `decelerate` calls until it settles is
deterministic and equals `⌈log(0.1/v0)/log(0.88)⌉` for `v0 > 0.1`, and
the number of frames in which the node actually moves (equivalently,
the number of scheduled decay frames, since the first call is
synchronous) is that ceiling minus one; for `|v0| ≤ 0.1` the node moves
in zero frames.  In particular for `v0 = 1.0` the node moves in exactly
18 frames.  After the whole session settles (the `decelerate` call that
resets the session variables), every connected node's transient scratch
state (velocity, dragging flag, originalDist, angle) is absent. -/
theorem claim_C2_amended :
    (∀ v0 : ℚ, (0.1 : ℚ) < v0 →
      (settleCalls v0 : ℤ) =
        ⌈Real.log ((0.1 : ℝ) / (v0 : ℝ)) / Real.log 0.88⌉ ∧
      movingFrames v0 = settleCalls v0 - 1) ∧
    (∀ v0 : ℚ, |v0| ≤ 0.1 → movingFrames v0 = 0) ∧
    movingFrames 1 = 18 ∧
    (∀ (s : Sys) (L : List ℕ), s.connectedNodes = some L →
      (decelerate s).connectedNodes = none →
      ∀ m ∈ L, (decelerate s).scr m = Scratch.empty) := by
  refine ⟨?_, ?_, movingFrames_at_one, decelerate_cleanup⟩
  · intro v0 hv
    exact ⟨settleCalls_eq_ceil v0 hv, movingFrames_eq_settleCalls_sub_one v0⟩
  · intro v0 hv
    rw [movingFrames_eq_settleCalls_sub_one, settleCalls_of_small v0 hv]

theorem claim_C2_amended_witness :
    (settleCalls 1 : ℤ) =
      ⌈Real.log ((0.1 : ℝ) / ((1 : ℚ) : ℝ)) / Real.log 0.88⌉ ∧
    movingFrames (1 / 20) = 0 :=
  ⟨(claim_C2_amended.1 1 (by norm_num)).1,
   claim_C2_amended.2.1 (1 / 20)
     (by rw [abs_of_pos (by norm_num : (0 : ℚ) < 1 / 20)]; norm_num)⟩

theorem sqrt_2500 : Real.sqrt 2500 = 50 := by
  rw [show (2500 : ℝ) = 50 ^ 2 by norm_num]
  exact Real.sqrt_sq (by norm_num)

theorem springTerm_eval2 :
    springTerm ⟨100, 0⟩ ⟨50, 0⟩ 100 = (⟨5, 0⟩ : Vec2) := by
  simp only [springTerm]
  rw [show ((100 : ℝ) - 50) * (100 - 50) + ((0 : ℝ) - 0) * (0 - 0) =
    2500 by norm_num]
  rw [sqrt_2500]
  rw [if_pos (by norm_num : (0 : ℝ) < 50)]
  simp only [Vec2.mk.injEq]
  norm_num

/-- Claim C4 (Scenario A).  With node 0 grabbed at the origin and
connected node 1 at `(100, 0)` (distance 100), a single move event that
puts node 0 at `(50, 0)` runs the drag handler with delta `(50, 0)` on
node 1, whose velocity was initialised to zero at grab time.  The
velocity stored by the handler is exactly
`dampVel (followVel 0 delta + springTerm ...)`: the follow stage yields
`(15, 0)` before the spring and repulsion terms are added, the damping
stage multiplies the accumulated velocity by `0.85` componentwise
(yielding `(12.75, 0)` absent the spring and repulsion contributions),
and with the spring contribution `(5, 0)` of the documented formula the
stored velocity is `(17, 0)`. -/
theorem claim_C4 :
    (sC1a.scr 1).velocity.getD ⟨0, 0⟩ = ⟨0, 0⟩ ∧
    (step adj0 sC1a (Ev.drag 0 ⟨50, 0⟩)).scr 1 =
      { sC1a.scr 1 with velocity := some (dampVel
          (followVel ⟨0, 0⟩ ⟨50 - 0, 0 - 0⟩ +
            springTerm ⟨100, 0⟩ ⟨50, 0⟩ 100)) } ∧
    followVel ⟨0, 0⟩ ⟨50 - 0, 0 - 0⟩ = ⟨15, 0⟩ ∧
    (∀ w : Vec2, dampVel w = ⟨w.x * 0.85, w.y * 0.85⟩) ∧
    dampVel ⟨15, 0⟩ = ⟨12.75, 0⟩ ∧
    dampVel (followVel ⟨0, 0⟩ ⟨50 - 0, 0 - 0⟩ +
      springTerm ⟨100, 0⟩ ⟨50, 0⟩ 100) = ⟨17, 0⟩ := by
  have hvel0 : (sC1a.scr 1).velocity.getD ⟨0, 0⟩ = ⟨0, 0⟩ := by
    rw [sC1a_scr1]
    rfl
  have hfollow : followVel ⟨0, 0⟩ ⟨50 - 0, 0 - 0⟩ = (⟨15, 0⟩ : Vec2) := by
    simp only [followVel, followStrength, Vec2.mk.injEq]
    norm_num
  have hdampall : ∀ w : Vec2, dampVel w = ⟨w.x * 0.85, w.y * 0.85⟩ :=
    fun _ => rfl
  have hdamp15 : dampVel ⟨15, 0⟩ = (⟨12.75, 0⟩ : Vec2) := by
    simp only [dampVel, Vec2.mk.injEq]
    norm_num
  have hfinal : dampVel (followVel ⟨0, 0⟩ ⟨50 - 0, 0 - 0⟩ +
      springTerm ⟨100, 0⟩ ⟨50, 0⟩ 100) = (⟨17, 0⟩ : Vec2) := by
    rw [hfollow, springTerm_eval2]
    rw [show (⟨15, 0⟩ + ⟨5, 0⟩ : Vec2) = ⟨20, 0⟩ by
      simp only [Vec2.add_def, Vec2.mk.injEq]; norm_num]
    simp only [dampVel, Vec2.mk.injEq]
    norm_num
  refine ⟨hvel0, ?_, hfollow, hdampall, hdamp15, hfinal⟩
  have hd : ({ sC1a with pos := upd sC1a.pos 0 ⟨50, 0⟩ } : Sys).draggedNode = some 0 := sC1a_dragged
  have hc : ({ sC1a with pos := upd sC1a.pos 0 ⟨50, 0⟩ } : Sys).connectedNodes = some [1] := sC1a_conn
  have hp : ({ sC1a with pos := upd sC1a.pos 0 ⟨50, 0⟩ } : Sys).prevDragPos = some ⟨0, 0⟩ := sC1a_prev
  have hupd1 : upd sC1a.pos 0 ⟨50, 0⟩ 1 = ⟨100, 0⟩ := by
    rw [upd_ne _ _ _ (by norm_num : (1 : ℕ) ≠ 0)]
    exact sC1a_pos1
  have hod : readOriginalDist (sC1a.scr 1) = 100 := by
    rw [sC1a_scr1]
    simp only [readOriginalDist]
    rw [sC1a_originalDist]
    norm_num
  show (dragHandler { sC1a with pos := upd sC1a.pos 0 ⟨50, 0⟩ }).scr 1 = _
  rw [dragHandler.eq_def, hd, hc, hp]
  simp only [dragHandlerNode, List.foldl_cons, List.foldl_nil, upd_same,
    if_true]
  rw [hvel0, hupd1, hod]

theorem repulsionTerm_self (pos otherPos : Vec2) (h : pos = otherPos) :
    repulsionTerm pos otherPos = ⟨0, 0⟩ := by
  subst h
  simp only [repulsionTerm, sub_self, mul_zero, add_zero, Real.sqrt_zero]
  rw [if_neg]
  push_neg
  intro h0
  exact absurd h0 (lt_irrefl 0)

theorem springTerm_self (pos dragPos : Vec2) (d0 : ℝ) (h : pos = dragPos) :
    springTerm pos dragPos d0 = ⟨0, 0⟩ := by
  subst h
  simp only [springTerm, sub_self, mul_zero, add_zero, Real.sqrt_zero]
  rw [if_neg]
  exact lt_irrefl 0

theorem repulsion_fold_const (L : List ℕ) (s : Sys) (n : ℕ)
    (h : ∀ k ∈ L, s.pos k = s.pos n) (v : Vec2) :
    L.foldl (fun v m => if m = n then v
      else v + repulsionTerm (s.pos n) (s.pos m)) v = v := by
  induction L generalizing v with
  | nil => rfl
  | cons k L ih =>
    rw [List.foldl_cons]
    by_cases hk : k = n
    · rw [if_pos hk]
      exact ih (fun j hj => h j (List.mem_cons_of_mem _ hj)) v
    · rw [if_neg hk,
        repulsionTerm_self _ _ (h k (List.mem_cons_self k L)).symm,
        Vec2.add_zero_vec]
      exact ih (fun j hj => h j (List.mem_cons_of_mem _ hj)) v

/-- Claim C5 (zero-distance safety).  A repulsion pair at identical
positions contributes nothing (the `0 < dist2` guard skips the term, so
no division is attempted), a connected node at zero distance from the
dragged node receives no spring contribution (the `currentDist > 0`
guard), and the follow force applies unconditionally.  Consequently,
when the dragged node and every connected node sit at one common
position, the per-node integrator stores exactly the damped follow
velocity — the degenerate spring and repulsion pairs contribute
nothing while the follow force still applies. -/
theorem claim_C5 (pos otherPos dragPos : Vec2) (d0 : ℝ) (v delta : Vec2)
    (L : List ℕ) (s : Sys) (n : ℕ) :
    (pos = otherPos → repulsionTerm pos otherPos = ⟨0, 0⟩) ∧
    (pos = dragPos → springTerm pos dragPos d0 = ⟨0, 0⟩) ∧
    followVel v delta =
      ⟨v.x + delta.x * followStrength, v.y + delta.y * followStrength⟩ ∧
    ((∀ k ∈ L, s.pos k = s.pos n) →
      ((dragHandlerNode L (s.pos n) delta s n).scr n).velocity =
        some (dampVel (followVel ((s.scr n).velocity.getD ⟨0, 0⟩) delta))) := by
  refine ⟨repulsionTerm_self pos otherPos,
    springTerm_self pos dragPos d0, rfl, ?_⟩
  intro hall
  simp only [dragHandlerNode, upd_same]
  rw [springTerm_self (s.pos n) (s.pos n) _ rfl, Vec2.add_zero_vec]
  rw [repulsion_fold_const L s n hall]

theorem claim_C5_witness :
    repulsionTerm ⟨3, 4⟩ ⟨3, 4⟩ = ⟨0, 0⟩ ∧
    springTerm ⟨3, 4⟩ ⟨3, 4⟩ 7 = ⟨0, 0⟩ :=
  ⟨(claim_C5 ⟨3, 4⟩ ⟨3, 4⟩ ⟨3, 4⟩ 7 ⟨1, 2⟩ ⟨5, 6⟩ [] sT0 0).1 rfl,
   (claim_C5 ⟨3, 4⟩ ⟨3, 4⟩ ⟨3, 4⟩ 7 ⟨1, 2⟩ ⟨5, 6⟩ [] sT0 0).2.1 rfl⟩

/-- Claim C6 (monotonic decay).  Across one `decelerate` call, any node
whose velocity scratch is present before and after has a velocity whose
Euclidean magnitude did not increase: the call either leaves a velocity
untouched (settled or skipped nodes) or multiplies both components by
`0.88`. -/
theorem claim_C6 (s : Sys) (m : ℕ) (v v' : Vec2)
    (hv : (s.scr m).velocity = some v)
    (hv' : ((decelerate s).scr m).velocity = some v') :
    Vec2.mag v' ≤ Vec2.mag v := by
  have hmag2 : Vec2.mag2 v' ≤ Vec2.mag2 v := by
    cases hc : s.connectedNodes with
    | none =>
      rw [decelerate_none s hc] at hv'
      rw [hv] at hv'
      cases hv'
      exact le_refl _
    | some L =>
      by_cases hmov : (L.foldl decelNode (s, false)).2 = true
      · have hscr : (decelerate s).scr m =
            (L.foldl decelNode (s, false)).1.scr m := by
          rw [decelerate_eq s L hc, if_pos hmov]
        rw [hscr] at hv'
        obtain ⟨v0, hv0, hle⟩ := decelFold_vel L (s, false) m v' hv'
        rw [hv] at hv0
        cases hv0
        exact hle
      · by_cases hm : m ∈ L
        · have hscr : (decelerate s).scr m = Scratch.empty := by
            rw [decelerate_eq s L hc, if_neg hmov]
            exact cleanupFold_mem L _ hm
          rw [hscr] at hv'
          cases hv'
        · have hscr : (decelerate s).scr m =
              (L.foldl decelNode (s, false)).1.scr m := by
            rw [decelerate_eq s L hc, if_neg hmov]
            exact cleanupFold_not_mem L _ hm
          rw [hscr] at hv'
          obtain ⟨v0, hv0, hle⟩ := decelFold_vel L (s, false) m v' hv'
          rw [hv] at hv0
          cases hv0
          exact hle
  exact Real.sqrt_le_sqrt hmag2

/-- Concrete state for exercising the decay step: one connected node
(node 1) with velocity `(1, 0)` and its dragging flag set. -/
noncomputable def sW6 : Sys :=
  { sT0 with
    draggedNode := some 0
    connectedNodes := some [1]
    scr := upd sT0.scr 1
      { velocity := some ⟨1, 0⟩
        dragging := some true
        originalDist := none
        angle := none } }

theorem sW6_dragging : (sW6.scr 1).dragging = some true := rfl

theorem sW6_velocity : (sW6.scr 1).velocity = some ⟨1, 0⟩ := rfl

theorem sW6_cond :
    0.1 < |((⟨1, 0⟩ : Vec2)).x * 0.88| ∨
      0.1 < |((⟨1, 0⟩ : Vec2)).y * 0.88| := by
  left
  show (0.1 : ℝ) < |(1 : ℝ) * 0.88|
  rw [show ((1 : ℝ) * 0.88) = 0.88 by norm_num]
  rw [abs_of_pos (by norm_num : (0 : ℝ) < 0.88)]
  norm_num

theorem sW6_after :
    ((decelerate sW6).scr 1).velocity =
      some ⟨(⟨1, 0⟩ : Vec2).x * 0.88, (⟨1, 0⟩ : Vec2).y * 0.88⟩ := by
  rw [decelerate_eq sW6 [1] rfl]
  simp only [List.foldl_cons, List.foldl_nil]
  rw [decelNode_move (sW6, false) 1 ⟨1, 0⟩ sW6_dragging sW6_velocity sW6_cond]
  simp only [if_true, upd_same]

theorem claim_C6_witness :
    Vec2.mag ⟨(⟨1, 0⟩ : Vec2).x * 0.88, (⟨1, 0⟩ : Vec2).y * 0.88⟩ ≤
      Vec2.mag ⟨1, 0⟩ :=
  claim_C6 sW6 1 ⟨1, 0⟩ _ sW6_velocity sW6_after

/-- Claim C10.  Once a node's `_dragging` flag has been cleared
(marked settled), a further `decelerate` call never moves it and never
touches its scratch state, except that the call which ends the whole
session (the one that resets `connectedNodes` to `none`) removes the
scratch entirely: the settled node's position is always preserved, and
its scratch is either exactly as before or removed at whole-session
teardown. -/
theorem claim_C10 (s : Sys) (L : List ℕ) (m : ℕ) (σ : Scratch)
    (hc : s.connectedNodes = some L)
    (hσ : s.scr m = σ) (hsettled : σ.dragging = some false) :
    (decelerate s).pos m = s.pos m ∧
    ((decelerate s).scr m = σ ∨
      ((decelerate s).scr m = Scratch.empty ∧
       (decelerate s).connectedNodes = none)) := by
  have hd : (s.scr m).dragging = some false := by
    rw [hσ]
    exact hsettled
  obtain ⟨hp, hs⟩ := decelFold_settled L (s, false) m hd
  by_cases hmov : (L.foldl decelNode (s, false)).2 = true
  · have hpos : (decelerate s).pos m =
        (L.foldl decelNode (s, false)).1.pos m := by
      rw [decelerate_eq s L hc, if_pos hmov]
    have hscr : (decelerate s).scr m =
        (L.foldl decelNode (s, false)).1.scr m := by
      rw [decelerate_eq s L hc, if_pos hmov]
    exact ⟨hpos.trans hp, Or.inl (hscr.trans (hs.trans hσ))⟩
  · have hpos : (decelerate s).pos m =
        (L.foldl decelNode (s, false)).1.pos m := by
      rw [decelerate_eq s L hc, if_neg hmov]
    have hconn : (decelerate s).connectedNodes = none := by
      rw [decelerate_eq s L hc, if_neg hmov]
    by_cases hm : m ∈ L
    · have hscr : (decelerate s).scr m = Scratch.empty := by
        rw [decelerate_eq s L hc, if_neg hmov]
        exact cleanupFold_mem L _ hm
      exact ⟨hpos.trans hp, Or.inr ⟨hscr, hconn⟩⟩
    · have hscr : (decelerate s).scr m =
          (L.foldl decelNode (s, false)).1.scr m := by
        rw [decelerate_eq s L hc, if_neg hmov]
        exact cleanupFold_not_mem L _ hm
      exact ⟨hpos.trans hp, Or.inl (hscr.trans (hs.trans hσ))⟩

/-- Concrete state with a settled node: node 1 carries a velocity but
its `_dragging` flag has been cleared. -/
noncomputable def sW10 : Sys :=
  { sT0 with
    connectedNodes := some [1]
    scr := upd sT0.scr 1
      { velocity := some ⟨5, 5⟩
        dragging := some false
        originalDist := none
        angle := none } }

theorem claim_C10_witness : (decelerate sW10).pos 1 = sW10.pos 1 :=
  (claim_C10 sW10 [1] 1
    { velocity := some ⟨5, 5⟩
      dragging := some false
      originalDist := none
      angle := none } rfl rfl rfl).1

theorem decelerate_small (s : Sys) (L : List ℕ) (m : ℕ) (v : Vec2)
    (hc : s.connectedNodes = some L) (hm : m ∈ L)
    (hdr : (s.scr m).dragging = some true)
    (hv : (s.scr m).velocity = some v)
    (hx : |v.x * 0.88| ≤ 0.1) (hy : |v.y * 0.88| ≤ 0.1) :
    (decelerate s).pos m = s.pos m ∧
    (((decelerate s).scr m).dragging = some false ∨
      (decelerate s).scr m = Scratch.empty) := by
  obtain ⟨hp, hs⟩ := decelFold_small L (s, false) m v hm hdr hv hx hy
  by_cases hmov : (L.foldl decelNode (s, false)).2 = true
  · have hpos : (decelerate s).pos m =
        (L.foldl decelNode (s, false)).1.pos m := by
      rw [decelerate_eq s L hc, if_pos hmov]
    have hscr : (decelerate s).scr m =
        (L.foldl decelNode (s, false)).1.scr m := by
      rw [decelerate_eq s L hc, if_pos hmov]
    refine ⟨hpos.trans hp, Or.inl ?_⟩
    rw [hscr, hs]
  · have hpos : (decelerate s).pos m =
        (L.foldl decelNode (s, false)).1.pos m := by
      rw [decelerate_eq s L hc, if_neg hmov]
    have hscr : (decelerate s).scr m = Scratch.empty := by
      rw [decelerate_eq s L hc, if_neg hmov]
      exact cleanupFold_mem L _ hm
    exact ⟨hpos.trans hp, Or.inr hscr⟩

/-- Claim C8.  In the decay loop the damping multiplication is applied
before the settle-threshold test: a node with `_dragging` set and a
velocity settles in a given `decelerate` call exactly when the damped
velocity `0.88·V` is within the `0.1` threshold on both axes.  Since
the first `decelerate` call runs synchronously inside the release
handler, a node released with `|V.x| ≤ 0.1/0.88` and
`|V.y| ≤ 0.1/0.88` is marked settled by the release event itself and
its position never changes after release. -/
theorem claim_C8 (adj : ℕ → List ℕ) (s : Sys) (d : ℕ) (L : List ℕ)
    (m : ℕ) (v : Vec2)
    (hd : s.draggedNode = some d) (hc : s.connectedNodes = some L)
    (hm : m ∈ L)
    (hdr : (s.scr m).dragging = some true)
    (hv : (s.scr m).velocity = some v)
    (hx : |v.x| ≤ 0.1 / 0.88) (hy : |v.y| ≤ 0.1 / 0.88) :
    ((step adj s Ev.free).pos m = s.pos m ∧
     (((step adj s Ev.free).scr m).dragging = some false ∨
       (step adj s Ev.free).scr m = Scratch.empty)) ∧
    (∀ (p : Sys × Bool) (k : ℕ) (w : Vec2),
      (p.1.scr k).dragging = some true → (p.1.scr k).velocity = some w →
      (((decelNode p k).1.scr k).dragging = some false ↔
        (|w.x * 0.88| ≤ 0.1 ∧ |w.y * 0.88| ≤ 0.1))) := by
  have hx' : |v.x * 0.88| ≤ 0.1 := by
    rw [abs_mul, abs_of_pos (by norm_num : (0 : ℝ) < 0.88)]
    calc |v.x| * 0.88 ≤ 0.1 / 0.88 * 0.88 := by nlinarith [abs_nonneg v.x]
      _ = 0.1 := by norm_num
  have hy' : |v.y * 0.88| ≤ 0.1 := by
    rw [abs_mul, abs_of_pos (by norm_num : (0 : ℝ) < 0.88)]
    calc |v.y| * 0.88 ≤ 0.1 / 0.88 * 0.88 := by nlinarith [abs_nonneg v.y]
      _ = 0.1 := by norm_num
  constructor
  · show (freeHandler s).pos m = s.pos m ∧
      (((freeHandler s).scr m).dragging = some false ∨
        (freeHandler s).scr m = Scratch.empty)
    rw [freeHandler_eq s d L hd hc]
    cases ha : s.animationId with
    | none =>
      exact decelerate_small s L m v hc hm hdr hv hx' hy'
    | some j =>
      exact decelerate_small
        { s with animationId := some j
                 pending := if s.pending = some j then none else s.pending }
        L m v hc hm hdr hv hx' hy'
  · intro p k w hdrag hvel
    by_cases hcond : 0.1 < |w.x * 0.88| ∨ 0.1 < |w.y * 0.88|
    · rw [decelNode_move p k w hdrag hvel hcond]
      simp only [upd_same]
      constructor
      · intro hcontra
        have h1 : (p.1.scr k).dragging = some false := hcontra
        rw [hdrag] at h1
        cases h1
      · intro ⟨h1, h2⟩
        rcases hcond with h | h
        · linarith
        · linarith
    · push_neg at hcond
      rw [decelNode_settle p k w hdrag hvel hcond.1 hcond.2]
      simp only [upd_same]
      constructor
      · intro _
        exact hcond
      · intro _
        trivial

/-- Concrete release state: node 1 is connected, dragging, with
velocity `(0.1, 0)` — below the `0.1/0.88` damped-settle bound. -/
noncomputable def sW8 : Sys :=
  { sT0 with
    draggedNode := some 0
    connectedNodes := some [1]
    scr := upd sT0.scr 1
      { velocity := some ⟨0.1, 0⟩
        dragging := some true
        originalDist := none
        angle := none } }

theorem claim_C8_witness : (step adj0 sW8 Ev.free).pos 1 = sW8.pos 1 :=
  (claim_C8 adj0 sW8 0 [1] 1 ⟨0.1, 0⟩ rfl rfl
    (List.mem_singleton.mpr rfl) rfl rfl
    (by show |(0.1 : ℝ)| ≤ 0.1 / 0.88
        rw [abs_of_pos (by norm_num : (0 : ℝ) < 0.1)]
        rw [div_eq_mul_inv]
        nlinarith)
    (by show |(0 : ℝ)| ≤ 0.1 / 0.88
        rw [abs_zero]
        positivity)).1.1

/-- Claim C9.  A move event first lets the rendering layer place the
moved node, then runs the drag handler; the handler's force-integration
pass writes positions only for members of the captured connected set:
every node outside the set keeps its position, and in particular the
dragged node itself (which, in any reachable session state, is never a
member of the captured set) is not moved by the handler. -/
theorem claim_C9 (adj : ℕ → List ℕ) (s : Sys) (d : ℕ) (L : List ℕ)
    (n : ℕ) (p : Vec2)
    (hreach : Reachable adj s)
    (hd : s.draggedNode = some d) (hc : s.connectedNodes = some L) :
    step adj s (Ev.drag n p) = dragHandler { s with pos := upd s.pos n p } ∧
    (∀ m, m ∉ L →
      (dragHandler { s with pos := upd s.pos n p }).pos m =
        ({ s with pos := upd s.pos n p } : Sys).pos m) ∧
    d ∉ L ∧
    (dragHandler { s with pos := upd s.pos n p }).pos d =
      ({ s with pos := upd s.pos n p } : Sys).pos d := by
  have hnot := reachable_dragged_not_connected adj s hreach d L hd hc
  have hc' : ({ s with pos := upd s.pos n p } : Sys).connectedNodes =
      some L := hc
  exact ⟨rfl, fun m hm => dragHandler_pos_not_mem _ L hc' hm, hnot,
    dragHandler_pos_not_mem _ L hc' hnot⟩

theorem claim_C9_witness :
    (dragHandler { sC1a with pos := upd sC1a.pos 0 ⟨-100, 0⟩ }).pos 2 =
      ({ sC1a with pos := upd sC1a.pos 0 ⟨-100, 0⟩ } : Sys).pos 2 :=
  (claim_C9 adj0 sC1a 0 [1] 0 ⟨-100, 0⟩
    (Reachable.next sT0 (Ev.grab 0) (Reachable.init posInit (fun _ => true)))
    sC1a_dragged sC1a_conn).2.1 2 (by simp)

/-- Claim C1 counterexample.  The grab handler does not cancel the
pending animation frame of a decaying session (only the free handler
does), and every `decelerate` closure reads the shared session
variables.  Concretely: grab node 0, drag it (giving connected node 1 a
residual velocity), release it — the synchronous `decelerate` call
leaves node 1 moving and schedules frame 1 — then grab node 2 to start
a new session.  After that grab the old session's frame callback is
still pending (`pending = some 1`), and when it fires it runs against
the NEW session's variables: it marks node 2's connected node 3 as
settled, removes node 3's scratch, and resets the session variables,
destroying the new session.  This refutes the clause that no pending
decay frame callback of the cancelled session mutates any state after
the new grab. -/
theorem claim_C1_counterexample :
    sC1c.pending = some 1 ∧
    sC1d = step adj0 sC1c (Ev.grab 2) ∧
    sC1d.pending = some 1 ∧
    sC1d.draggedNode = some 2 ∧
    (sC1d.scr 3).dragging = some true ∧
    sC1e = step adj0 sC1d Ev.frame ∧
    sC1e.draggedNode = none ∧
    sC1e.connectedNodes = none ∧
    sC1e.scr 3 = Scratch.empty :=
  ⟨sC1c_pending, rfl, sC1d_pending, sC1d_dragged, sC1d_dragging3, rfl,
   sC1e_dragged, by
     rw [sC1e_eq, decelerate_eq ({ sC1d with pending := none }) [3]
       sC1e_conn_aux]
     simp only [List.foldl_cons, List.foldl_nil]
     rw [decelNode_settle ({ sC1d with pending := none }, false) 3 ⟨0, 0⟩
       sC1d_dragging3 sC1d_velocity3 sC1e_zero_small sC1e_zero_small]
     simp only [Bool.false_eq_true, if_false],
   sC1e_scr3⟩

/-- Claim C1, amended.  Starting a new grab does NOT cancel the old
session's pending decay frame.  When that stale callback fires directly
after the grab (before any move event) it operates on the new session's
connected set, whose velocities were just zeroed: it changes no node's
position and no stored velocity value, but it does mutate state — it
settles the new session's nodes, removes their scratch and resets the
session variables, aborting the new session. -/
theorem claim_C1_amended (adj : ℕ → List ℕ) (s : Sys) (n : ℕ) :
    (∀ m, (step adj (step adj s (Ev.grab n)) Ev.frame).pos m =
      (step adj s (Ev.grab n)).pos m) ∧
    (∀ m w,
      ((step adj (step adj s (Ev.grab n)) Ev.frame).scr m).velocity =
        some w →
      ((step adj s (Ev.grab n)).scr m).velocity = some w) ∧
    ((step adj s (Ev.grab n)).pending ≠ none →
      (step adj (step adj s (Ev.grab n)) Ev.frame).draggedNode = none ∧
      (step adj (step adj s (Ev.grab n)) Ev.frame).connectedNodes = none) := by
  have hall : ∀ k ∈ (adj n).filter (fun m => m ≠ n && s.live m),
      ((grabStep adj s n).scr k).velocity = some ⟨0, 0⟩ ∧
      ((grabStep adj s n).scr k).dragging = some true := by
    intro k hk
    rw [grabStep_scr_mem adj s n hk]
    exact ⟨rfl, rfl⟩
  cases hp : (grabStep adj s n).pending with
  | none =>
    have hid : step adj (step adj s (Ev.grab n)) Ev.frame =
        step adj s (Ev.grab n) := frameStep_none _ hp
    refine ⟨fun m => by rw [hid], fun m w h => by rw [hid] at h; exact h, ?_⟩
    intro hne
    exact absurd hp hne
  | some i =>
    have hfr : step adj (step adj s (Ev.grab n)) Ev.frame =
        decelerate { grabStep adj s n with pending := none } :=
      frameStep_some _ i hp
    have hc : ({ grabStep adj s n with pending := none } : Sys).connectedNodes
        = some ((adj n).filter (fun m => m ≠ n && s.live m)) := rfl
    set L := (adj n).filter (fun m => m ≠ n && s.live m) with hL
    have H : ∀ k ∈ L,
        ((({ grabStep adj s n with pending := none } : Sys), false).1.scr
          k).velocity = some ⟨0, 0⟩ ∨
        ((({ grabStep adj s n with pending := none } : Sys), false).1.scr
          k).dragging ≠ some true := by
      intro k hk
      exact Or.inl (hall k hk).1
    obtain ⟨hsnd, hpos, hvel⟩ := decelFold_zero L
      (({ grabStep adj s n with pending := none } : Sys), false) H
    have hmov : ¬((L.foldl decelNode
        (({ grabStep adj s n with pending := none } : Sys), false)).2 = true)
        := by
      rw [hsnd]
      simp
    refine ⟨?_, ?_, ?_⟩
    · intro m
      rw [hfr, decelerate_eq _ L hc, if_neg hmov]
      exact hpos m
    · intro m w hw
      by_cases hm : m ∈ L
      · exfalso
        have hscr : (decelerate
            ({ grabStep adj s n with pending := none } : Sys)).scr m =
            Scratch.empty := by
          rw [decelerate_eq _ L hc, if_neg hmov]
          exact cleanupFold_mem L _ hm
        rw [hfr, hscr] at hw
        cases hw
      · have hscr : (decelerate
            ({ grabStep adj s n with pending := none } : Sys)).scr m =
            (L.foldl decelNode
              (({ grabStep adj s n with pending := none } : Sys),
                false)).1.scr m := by
          rw [decelerate_eq _ L hc, if_neg hmov]
          exact cleanupFold_not_mem L _ hm
        rw [hfr, hscr] at hw
        exact (hvel m).symm.trans hw
    · intro _
      rw [hfr, decelerate_eq _ L hc, if_neg hmov]
      exact ⟨rfl, rfl⟩

theorem claim_C1_amended_witness :
    (step adj0 (step adj0 sC1c (Ev.grab 2)) Ev.frame).draggedNode = none ∧
    (step adj0 (step adj0 sC1c (Ev.grab 2)) Ev.frame).connectedNodes =
      none :=
  (claim_C1_amended adj0 sC1c 2).2.2 (by
    show sC1d.pending ≠ none
    rw [sC1d_pending]
    simp)
